import Mathlib

/-!
# Receipt processor: points calculation and validation

A shallow embedding of `main.go` (package `main`): the `Receipt` and `Item`
records, `validateReceipt`, `calculatePoints`, and the library functions of the
Go standard library that they call (`regexp`, `strings`, `strconv`, `time`,
`float64` arithmetic and `int` arithmetic).

Modelling conventions.

* A Go `string` is a Lean `String`: receipts reach the program through JSON
  decoding, which always yields valid UTF-8 text.  `len(s)` is the number of
  bytes of the UTF-8 encoding.
* Go `int` is the 64-bit two's complement integer: a value is a Lean `Int`
  in `[-2^63, 2^63)` and every `+` is followed by `wrap64`.
* A `float64` is a sign, a natural mantissa and a binary exponent, or an
  infinity, or NaN; every operation rounds to nearest, ties to even.
-/

namespace ReceiptProcessor

/-! ## Data model (`main.go`, lines 14-25) -/

/-- Go `type Item struct`: a short description and a price, both strings. -/
structure Item where
  shortDescription : String
  price : String
  deriving DecidableEq, Repr

/-- Go `type Receipt struct`. -/
structure Receipt where
  retailer : String
  purchaseDate : String
  purchaseTime : String
  items : List Item
  total : String
  deriving DecidableEq, Repr

/-! ## Go `int` -/

/-- Reduction of a mathematical integer to the Go `int` range (64 bits, two's
complement wrap-around), as performed by every Go `int` addition. -/
def wrap64 (x : Int) : Int := (x + 2 ^ 63) % 2 ^ 64 - 2 ^ 63

/-- Go `len(s)` for a string: the number of bytes of its UTF-8 encoding. -/
def byteLen (s : List Char) : Nat := (s.map Char.utf8Size).sum

/-! ## Regular expressions (`regexp`)

The four validation patterns are anchored with `^` and `$` (no multi-line
flag), so `MatchString` succeeds exactly when the body of the pattern matches
the whole string.  The body is represented by a small syntax tree and matched
with Brzozowski derivatives.  In Go (RE2 syntax) the Perl classes are ASCII
only: `\d` is `[0-9]`, `\w` is `[0-9A-Za-z_]`, `\s` is `[\t\n\f\r ]`. -/

/-- Regular expression syntax over characters. -/
inductive Regex where
  | empty : Regex
  | eps : Regex
  | cls : (Char → Bool) → Regex
  | alt : Regex → Regex → Regex
  | cat : Regex → Regex → Regex
  | star : Regex → Regex

namespace Regex

/-- One or more repetitions, `r+`. -/
def plus (r : Regex) : Regex := cat r (star r)

/-- Does the expression match the empty string. -/
def nullable : Regex → Bool
  | empty => false
  | eps => true
  | cls _ => false
  | alt a b => nullable a || nullable b
  | cat a b => nullable a && nullable b
  | star _ => true

/-- Brzozowski derivative with respect to one character. -/
def deriv : Regex → Char → Regex
  | empty, _ => empty
  | eps, _ => empty
  | cls p, c => if p c then eps else empty
  | alt a b, c => alt (deriv a c) (deriv b c)
  | cat a b, c =>
      if nullable a then alt (cat (deriv a c) b) (deriv b c) else cat (deriv a c) b
  | star a, c => cat (deriv a c) (star a)

/-- Whole-string match: `regexp.MatchString` for a pattern `^body$`. -/
def matchString (r : Regex) (s : List Char) : Bool := nullable (s.foldl deriv r)

/-- The language of a regular expression (used only in proofs). -/
inductive Matches : Regex → List Char → Prop
  | eps : Matches eps []
  | cls {p : Char → Bool} {c : Char} : p c = true → Matches (cls p) [c]
  | altL {a b : Regex} {s : List Char} : Matches a s → Matches (alt a b) s
  | altR {a b : Regex} {s : List Char} : Matches b s → Matches (alt a b) s
  | cat {a b : Regex} {s t : List Char} :
      Matches a s → Matches b t → Matches (cat a b) (s ++ t)
  | starNil {a : Regex} : Matches (star a) []
  | starCons {a : Regex} {s t : List Char} :
      Matches a s → Matches (star a) t → Matches (star a) (s ++ t)

end Regex

/-- Go `\d`: an ASCII decimal digit. -/
def isDigit (c : Char) : Bool := decide ('0' ≤ c) && decide (c ≤ '9')

/-- ASCII letter or digit: the class `[a-zA-Z0-9]`. -/
def isAlnum (c : Char) : Bool :=
  (decide ('a' ≤ c) && decide (c ≤ 'z')) || (decide ('A' ≤ c) && decide (c ≤ 'Z')) ||
    (decide ('0' ≤ c) && decide (c ≤ '9'))

/-- Go `\w`: `[0-9A-Za-z_]`. -/
def isWord (c : Char) : Bool := isAlnum c || c == '_'

/-- Go `\s`: `[\t\n\f\r ]`. -/
def isReSpace (c : Char) : Bool :=
  c == '\t' || c == '\n' || c == Char.ofNat 12 || c == '\r' || c == ' '

/-- Class `[\w\s\-&]` of the retailer pattern. -/
def retailerClass (c : Char) : Bool := isWord c || isReSpace c || c == '-' || c == '&'

/-- Class `[\w\s\-]` of the short-description pattern. -/
def descClass (c : Char) : Bool := isWord c || isReSpace c || c == '-'

/-- Body of the pattern `^[\w\s\-&]+$`. -/
def retailerPattern : Regex := Regex.plus (Regex.cls retailerClass)

/-- Body of the pattern `^\d+\.\d{2}$` (used for `total` and for `price`). -/
def decimalPattern : Regex :=
  Regex.cat (Regex.plus (Regex.cls isDigit))
    (Regex.cat (Regex.cls (fun c => c == '.'))
      (Regex.cat (Regex.cls isDigit) (Regex.cls isDigit)))

/-- Body of the pattern `^[\w\s\-]+$`. -/
def shortDescriptionPattern : Regex := Regex.plus (Regex.cls descClass)

/-! ## `validateReceipt` (`main.go`, lines 80-104) -/

/-- The `for _, item := range receipt.Items` loop of `validateReceipt`, with its
early `return false`; the value is what the function returns after the loop. -/
def validateItems : List Item → Bool
  | [] => true
  | item :: rest =>
      if !Regex.matchString shortDescriptionPattern item.shortDescription.data ||
          !Regex.matchString decimalPattern item.price.data then
        false
      else
        validateItems rest

/-- Go `validateReceipt`. -/
def validateReceipt (receipt : Receipt) : Bool :=
  if !Regex.matchString retailerPattern receipt.retailer.data then
    false
  else if !Regex.matchString decimalPattern receipt.total.data then
    false
  else
    validateItems receipt.items

/-! ## `float64` (IEEE 754 binary64, round to nearest, ties to even) -/

/-- A `float64` value: `fin neg m e` is `(-1)^neg * m * 2^e`. -/
inductive F64 where
  | fin (neg : Bool) (m : Nat) (e : Int) : F64
  | inf (neg : Bool) : F64
  | nan : F64
  deriving DecidableEq, Repr

/-- Number of binary digits of `n`, by halving (`fuel` bounds the number of steps). -/
def bitLenAux : Nat → Nat → Nat
  | 0, _ => 0
  | fuel + 1, n => if n = 0 then 0 else bitLenAux fuel (n / 2) + 1

/-- Number of binary digits of `n` (0 for 0). -/
def bitLen (n : Nat) : Nat := bitLenAux n n

/-- Decides `2^e ≤ num / den` for a positive denominator. -/
def pow2Le (e : Int) (num den : Nat) : Bool :=
  if 0 ≤ e then decide (2 ^ e.toNat * den ≤ num) else decide (den ≤ num * 2 ^ (-e).toNat)

/-- The binary exponent of the positive rational `num / den`: the integer `e`
with `2^e ≤ num / den < 2^(e+1)`. -/
def floorLog2 (num den : Nat) : Int :=
  let e0 : Int := (bitLen num : Int) - (bitLen den : Int)
  if pow2Le e0 num den then e0 else e0 - 1

/-- The integer nearest to `p / q`, ties to the even one. -/
def roundHalfEven (p q : Nat) : Nat :=
  if 2 * (p % q) < q then p / q else if q < 2 * (p % q) then p / q + 1 else p / q + p / q % 2

/-- Correctly rounded conversion of the rational `(-1)^neg * num / den` to
`float64`: 53 significant bits, gradual underflow below `2^-1022`, overflow to
infinity from `2^1024 - 2^970` on. -/
def roundNearestEven (neg : Bool) (num den : Nat) : F64 :=
  if num = 0 then F64.fin neg 0 0
  else
    let e := floorLog2 num den
    let ex := max e (-1022) - 52
    let p := if 0 ≤ ex then num else num * 2 ^ (-ex).toNat
    let q := if 0 ≤ ex then den * 2 ^ ex.toNat else den
    let m := roundHalfEven p q
    if 1024 ≤ e ∨ (e = 1023 ∧ m = 2 ^ 53) then F64.inf neg else F64.fin neg m ex

/-- Go `x * y` on `float64`. -/
def F64.mul : F64 → F64 → F64
  | F64.fin n1 m1 e1, F64.fin n2 m2 e2 =>
      if 0 ≤ e1 + e2 then
        roundNearestEven (Bool.xor n1 n2) (m1 * m2 * 2 ^ (e1 + e2).toNat) 1
      else
        roundNearestEven (Bool.xor n1 n2) (m1 * m2) (2 ^ (-(e1 + e2)).toNat)
  | F64.fin n1 m1 _, F64.inf n2 => if m1 = 0 then F64.nan else F64.inf (Bool.xor n1 n2)
  | F64.inf n1, F64.fin n2 m2 _ => if m2 = 0 then F64.nan else F64.inf (Bool.xor n1 n2)
  | F64.inf n1, F64.inf n2 => F64.inf (Bool.xor n1 n2)
  | F64.nan, _ => F64.nan
  | _, F64.nan => F64.nan

/-- The behaviour of the Go implementation that the program text does not fix. -/
structure Platform where
  /-- Result of `strconv.ParseFloat(s, 64)` for a string that is not a plain
  decimal literal (digits, a point, digits): `none` when it returns an error. -/
  parseFloatOther : String → Option F64
  /-- Result of the conversion `int(f)` when `f` is NaN, infinite or outside the
  `int` range (implementation-dependent in Go). -/
  intOutOfRange : F64 → Int

/-- Go `int(f)` for a `float64`: truncation toward zero. -/
def F64.toInt (pf : Platform) : F64 → Int
  | F64.fin neg m e =>
      let t : Nat := if 0 ≤ e then m * 2 ^ e.toNat else m / 2 ^ (-e).toNat
      let v : Int := if neg then -(t : Int) else (t : Int)
      if -(2 ^ 63) ≤ v ∧ v < 2 ^ 63 then v else wrap64 (pf.intOutOfRange (F64.fin neg m e))
  | f => wrap64 (pf.intOutOfRange f)

/-- The constant `100` as a `float64`. -/
def float100 : F64 := F64.fin false 100 0

/-- The constant `0.2` as a `float64` (the nearest one). -/
def float02 : F64 := roundNearestEven false 2 10

/-! ## `strconv`, `strings`, `time` -/

/-- Value of an ASCII digit. -/
def digitVal (c : Char) : Nat := c.toNat - 48

/-- Value of a sequence of decimal digits. -/
def decimalValue (ds : List Char) : Nat := ds.foldl (fun acc c => 10 * acc + digitVal c) 0

/-- Go `strconv.ParseFloat(s, 64)`; `none` stands for a non-nil error.  A plain
decimal literal is converted with correct rounding, and gives a range error
when it rounds to infinity. -/
def ParseFloat (pf : Platform) (s : String) : Option F64 :=
  match s.data.dropWhile isDigit with
  | '.' :: fp =>
      let ip := s.data.takeWhile isDigit
      if !ip.isEmpty && !fp.isEmpty && fp.all isDigit then
        match roundNearestEven false (decimalValue (ip ++ fp)) (10 ^ fp.length) with
        | F64.fin n m e => some (F64.fin n m e)
        | _ => none
      else pf.parseFloatOther s
  | _ => pf.parseFloatOther s

/-- Go `strings.HasSuffix` for an ASCII suffix. -/
def HasSuffix (s suffix : List Char) : Bool :=
  decide (suffix.length ≤ s.length) && s.drop (s.length - suffix.length) == suffix

/-- Go `unicode.IsSpace`. -/
def isUnicodeSpace (c : Char) : Bool :=
  let n := c.toNat
  (9 ≤ n && n ≤ 13) || n == 32 || n == 0x85 || n == 0xA0 || n == 0x1680 ||
    (0x2000 ≤ n && n ≤ 0x200A) || n == 0x2028 || n == 0x2029 || n == 0x202F ||
    n == 0x205F || n == 0x3000

/-- Go `strings.TrimSpace`. -/
def TrimSpace (s : List Char) : List Char :=
  ((s.dropWhile isUnicodeSpace).reverse.dropWhile isUnicodeSpace).reverse

/-- Go `strings.Split(s, sep)` for a one-character separator. -/
def Split (sep : Char) : List Char → List (List Char)
  | [] => [[]]
  | c :: s =>
      if c == sep then [] :: Split sep s
      else
        match Split sep s with
        | [] => [[c]]
        | p :: ps => (c :: p) :: ps

/-- The digit loop of `strconv.ParseUint(s, 10, 64)`: `none` is a syntax error,
and on overflow the loop stops at once with the largest `uint64`. -/
def parseUintLoop (acc : Nat) : List Char → Option Nat
  | [] => some acc
  | c :: s =>
      if isDigit c then
        if 2 ^ 64 ≤ 10 * acc + digitVal c then some (2 ^ 64 - 1)
        else parseUintLoop (10 * acc + digitVal c) s
      else none

/-- Magnitude and sign to `int`, as `strconv.ParseInt` does it: out-of-range
values are clamped. -/
def clampInt (neg : Bool) (un : Nat) : Int :=
  if neg then (if 2 ^ 63 < un then -(2 ^ 63) else -(un : Int))
  else (if 2 ^ 63 ≤ un then 2 ^ 63 - 1 else (un : Int))

/-- The value returned by Go `strconv.Atoi(s)` (its error is discarded by the
caller): 0 on a syntax error, the clamped value on a range error. -/
def Atoi (s : List Char) : Int :=
  let neg := s.head? == some '-'
  let body := if s.head? == some '-' || s.head? == some '+' then s.tail else s
  if body.isEmpty then 0
  else
    match parseUintLoop 0 body with
    | none => 0
    | some un => clampInt neg un

/-- Go `time.isLeap`. -/
def isLeap (year : Nat) : Bool := year % 4 == 0 && (year % 100 != 0 || year % 400 == 0)

/-- Go `time.daysIn`. -/
def daysIn (month year : Nat) : Nat :=
  if month == 2 then (if isLeap year then 29 else 28)
  else if month == 4 || month == 6 || month == 9 || month == 11 then 30
  else 31

/-- A parsed date: the fields of the `time.Time` that the program reads. -/
structure Date where
  year : Nat
  month : Nat
  day : Nat
  deriving DecidableEq, Repr

/-- Go `time.Parse("2006-01-02", s)`; `none` stands for a non-nil error.  The
layout asks for four year digits, `-`, two month digits, `-`, two day digits and
nothing else; the month must be in 1..12 and the day in 1..daysIn. -/
def parseDate (s : List Char) : Option Date :=
  match s with
  | [y1, y2, y3, y4, '-', m1, m2, '-', d1, d2] =>
      if isDigit y1 && isDigit y2 && isDigit y3 && isDigit y4 && isDigit m1 && isDigit m2 &&
          isDigit d1 && isDigit d2 then
        let year := decimalValue [y1, y2, y3, y4]
        let month := decimalValue [m1, m2]
        let day := decimalValue [d1, d2]
        if month < 1 ∨ 12 < month then none
        else if day < 1 ∨ daysIn month year < day then none
        else some ⟨year, month, day⟩
      else none
  | _ => none

/-- The count `len(reg.FindAllString(s, -1))` for a pattern that matches single
characters only: one match per matching character. -/
def findAllCount (r : Regex) : List Char → Nat
  | [] => 0
  | c :: s =>
      if Regex.nullable (Regex.deriv r c) then findAllCount r s + 1 else findAllCount r s

/-- The pattern `[a-zA-Z0-9]`. -/
def alnumPattern : Regex := Regex.cls isAlnum

/-! ## `calculatePoints` (`main.go`, lines 37-78) -/

/-- The `for _, item := range receipt.Items` loop of `calculatePoints`, threading
`totalPoints`. -/
def itemsLoop (pf : Platform) : List Item → Int → Int
  | [], totalPoints => totalPoints
  | item :: rest, totalPoints =>
      let trimmedDesc := TrimSpace item.shortDescription.data
      let totalPoints :=
        if byteLen trimmedDesc % 3 = 0 then
          match ParseFloat pf item.price with
          | some price =>
              wrap64 (totalPoints + wrap64 (F64.toInt pf (F64.mul price float02) + 1))
          | none => totalPoints
        else totalPoints
      itemsLoop pf rest totalPoints

/-- Go `calculatePoints`, statement by statement. -/
def calculatePoints (pf : Platform) (receipt : Receipt) : Int :=
  let totalPoints : Int := 0
  let totalPoints := wrap64 (totalPoints + (findAllCount alnumPattern receipt.retailer.data : Nat))
  let totalPoints :=
    if HasSuffix receipt.total.data ".00".data then wrap64 (totalPoints + 50) else totalPoints
  let totalPoints :=
    match ParseFloat pf receipt.total with
    | some total =>
        if Int.tmod (F64.toInt pf (F64.mul total float100)) 25 = 0 then wrap64 (totalPoints + 25)
        else totalPoints
    | none => totalPoints
  let totalPoints := wrap64 (totalPoints + ((receipt.items.length / 2 : Nat) : Int) * 5)
  let totalPoints := itemsLoop pf receipt.items totalPoints
  let totalPoints :=
    match parseDate receipt.purchaseDate.data with
    | some date => if date.day % 2 ≠ 0 then wrap64 (totalPoints + 6) else totalPoints
    | none => totalPoints
  let totalPoints :=
    match Split ':' receipt.purchaseTime.data with
    | [h, _] =>
        if 14 ≤ Atoi h ∧ Atoi h < 16 then wrap64 (totalPoints + 10) else totalPoints
    | _ => totalPoints
  totalPoints

/-! ## The seven contributions

What each statement of `calculatePoints` adds to `totalPoints`, named after the
rule it implements.  `calculatePoints_eq_wrap_rulesSum` below shows that
`calculatePoints` returns their sum reduced to the `int` range. -/

/-- Rule 1 (line 41): `len(reg.FindAllString(receipt.Retailer, -1))`. -/
def retailerPoints (retailer : String) : Int := (findAllCount alnumPattern retailer.data : Nat)

/-- Rule 2 (lines 43-45): 50 when the total has the suffix `.00`. -/
def roundDollarPoints (total : String) : Int :=
  if HasSuffix total.data ".00".data then 50 else 0

/-- Rule 3 (lines 47-50): 25 when `err == nil && int(total*100)%25 == 0`. -/
def quarterPoints (pf : Platform) (total : String) : Int :=
  match ParseFloat pf total with
  | some t => if Int.tmod (F64.toInt pf (F64.mul t float100)) 25 = 0 then 25 else 0
  | none => 0

/-- Rule 4 (line 52): `(len(receipt.Items) / 2) * 5`. -/
def pairPoints (items : List Item) : Int := ((items.length / 2 : Nat) : Int) * 5

/-- Rule 5, one item (lines 55-61): `int(price*0.2) + 1` when the trimmed
description has a length divisible by 3 and the price parses. -/
def itemPoints (pf : Platform) (item : Item) : Int :=
  if byteLen (TrimSpace item.shortDescription.data) % 3 = 0 then
    match ParseFloat pf item.price with
    | some price => wrap64 (F64.toInt pf (F64.mul price float02) + 1)
    | none => 0
  else 0

/-- Rule 5 (lines 54-62): the exact sum of the items' contributions. -/
def descriptionPoints (pf : Platform) (items : List Item) : Int :=
  (items.map (itemPoints pf)).sum

/-- Rule 6 (lines 64-67): 6 when the date parses and its day is odd. -/
def datePoints (purchaseDate : String) : Int :=
  match parseDate purchaseDate.data with
  | some date => if date.day % 2 ≠ 0 then 6 else 0
  | none => 0

/-- Rule 7 (lines 69-75): 10 when the time has two fields and the hour is 14 or 15. -/
def timePoints (purchaseTime : String) : Int :=
  match Split ':' purchaseTime.data with
  | [h, _] => if 14 ≤ Atoi h ∧ Atoi h < 16 then 10 else 0
  | _ => 0

/-- The exact (unbounded) sum of the seven contributions of a receipt. -/
def rulesSum (pf : Platform) (receipt : Receipt) : Int :=
  retailerPoints receipt.retailer + roundDollarPoints receipt.total +
    quarterPoints pf receipt.total + pairPoints receipt.items +
    descriptionPoints pf receipt.items + datePoints receipt.purchaseDate +
    timePoints receipt.purchaseTime

/-! ## Vocabulary of the specification -/

/-- A string of the form required of totals and prices: one or more digits, a
point, exactly two digits. -/
def DecimalForm (s : List Char) : Prop :=
  ∃ ip d1 d2, ip ≠ [] ∧ (∀ c ∈ ip, isDigit c = true) ∧ isDigit d1 = true ∧
    isDigit d2 = true ∧ s = ip ++ ['.', d1, d2]

/-- An ASCII letter `a`-`z` or `A`-`Z`. -/
def IsAsciiLetter (c : Char) : Prop := ('a' ≤ c ∧ c ≤ 'z') ∨ ('A' ≤ c ∧ c ≤ 'Z')

/-- A decimal digit `0`-`9`. -/
def IsDecimalDigit (c : Char) : Prop := '0' ≤ c ∧ c ≤ '9'

/-- A word character: ASCII letter, digit or underscore. -/
def IsWordChar (c : Char) : Prop := IsAsciiLetter c ∨ IsDecimalDigit c ∨ c = '_'

/-- A whitespace character of the validation patterns: tab, line feed, form
feed, carriage return or space. -/
def IsPatternSpace (c : Char) : Prop :=
  c = '\t' ∨ c = '\n' ∨ c = Char.ofNat 12 ∨ c = '\r' ∨ c = ' '

/-- The amount of a decimal string in cents: its digits read without the point. -/
def cents (s : String) : Nat := decimalValue (s.data.filter (fun c => c != '.'))

instance (c : Char) : Decidable (IsAsciiLetter c) := by
  unfold IsAsciiLetter; infer_instance

instance (c : Char) : Decidable (IsDecimalDigit c) := by
  unfold IsDecimalDigit; infer_instance

/-- The string is a decimal integer literal denoting `v`: an optional sign
followed by one or more digits. -/
def IsIntegerLiteral (s : List Char) (v : Int) : Prop :=
  ∃ ds, ds ≠ [] ∧ (∀ c ∈ ds, isDigit c = true) ∧
    ((s = ds ∧ v = decimalValue ds) ∨ (s = '+' :: ds ∧ v = decimalValue ds) ∨
      (s = '-' :: ds ∧ v = -(decimalValue ds : Int)))

/-- The character of the last decimal digit of `n`. -/
def digitChar (n : Nat) : Char := Char.ofNat (48 + n % 10)

/-- A number written with two digits. -/
def pad2 (n : Nat) : List Char := [digitChar (n / 10), digitChar n]

/-- A number written with four digits. -/
def pad4 (n : Nat) : List Char :=
  [digitChar (n / 1000), digitChar (n / 100), digitChar (n / 10), digitChar n]

/-- A date written as `YYYY-MM-DD`. -/
def isoDate (year month day : Nat) : List Char :=
  pad4 year ++ '-' :: pad2 month ++ '-' :: pad2 day

/-- Length of a month of the Gregorian calendar, leap years respected. -/
def monthLength (year month : Nat) : Nat :=
  match month with
  | 1 => 31
  | 2 => if year % 4 = 0 ∧ (year % 100 ≠ 0 ∨ year % 400 = 0) then 29 else 28
  | 3 => 31
  | 4 => 30
  | 5 => 31
  | 6 => 30
  | 7 => 31
  | 8 => 31
  | 9 => 30
  | 10 => 31
  | 11 => 30
  | 12 => 31
  | _ => 0

/-- The description-length contribution as the specification words it: over the
items whose trimmed description has a number of characters divisible by 3, the
sum of `floor(cents / 500) + 1`. -/
def descriptionSpec (items : List Item) : Int :=
  (items.map (fun item =>
    if (TrimSpace item.shortDescription.data).length % 3 = 0 then
      ((cents item.price / 500 : Nat) : Int) + 1
    else 0)).sum

/-- A platform used for the concrete examples: `ParseFloat` rejects every string
that is not a plain decimal literal and an out-of-range conversion gives the
smallest `int`.  The examples use plain decimal literals and in-range values
only, so they do not depend on this choice. -/
def samplePlatform : Platform := ⟨fun _ => none, fun _ => -(2 ^ 63)⟩

/-! ## Concrete receipts used in the examples -/

/-- A receipt of everyday size: five items, total 35.35. -/
def exampleReceipt : Receipt :=
  { retailer := "Target"
    purchaseDate := "2022-01-01"
    purchaseTime := "13:01"
    items :=
      [⟨"Mountain Dew 12PK", "6.49"⟩, ⟨"Emils Cheese Pizza", "12.25"⟩,
        ⟨"Knorr Creamy Chicken", "1.26"⟩, ⟨"Doritos Nacho Cheese", "3.35"⟩,
        ⟨"   Klarbrunn 12-PK 12 FL OZ  ", "12.00"⟩]
    total := "35.35" }

/-- A well-formed receipt with two items priced at `4 * 10^19`: each earns
`8 * 10^18 + 1` points, and two of them exceed the largest `int`. -/
def overflowReceipt : Receipt :=
  { retailer := "A"
    purchaseDate := "2022-01-02"
    purchaseTime := "13:01"
    items := [⟨"abc", "40000000000000000000.00"⟩, ⟨"abc", "40000000000000000000.00"⟩]
    total := "0.01" }

/-- A well-formed receipt whose single price, `10^17 + 7`, has more significant
digits than a `float64` holds. -/
def bigPriceReceipt : Receipt :=
  { retailer := "A"
    purchaseDate := "2022-01-02"
    purchaseTime := "13:01"
    items := [⟨"abc", "100000000000000007.00"⟩]
    total := "0.01" }

/-! ## The store and the two handlers (`main.go`, lines 35 and 106-127)

The handlers run one at a time on the package-level map `points`.  The parts
supplied by libraries are inputs of the model: the outcome of
`c.ShouldBindJSON(&receipt)` (`none` when it returns an error, otherwise the
decoded receipt) and the string that `uuid.New().String()` returns. -/

/-- Go `map[string]int`: the value stored under each key, if any. -/
abbrev Store := String → Option Int

/-- Go `make(map[string]int)`: the empty map. -/
def emptyStore : Store := fun _ => none

/-- Go `points[id] = v`. -/
def Store.set (points : Store) (id : String) (v : Int) : Store :=
  fun k => if k = id then some v else points k

/-- The JSON body of a response. -/
inductive Body where
  | id (id : String) : Body
  | points (pts : Int) : Body
  | error (msg : String) : Body
  deriving DecidableEq, Repr

/-- What a handler writes with `c.JSON`: the status code and the body. -/
structure Response where
  status : Nat
  body : Body
  deriving DecidableEq, Repr

/-- Go `processReceipt`: the new store and the response. -/
def processReceipt (pf : Platform) (points : Store) (bound : Option Receipt) (id : String) :
    Store × Response :=
  match bound with
  | none => (points, ⟨400, Body.error "The receipt is invalid."⟩)
  | some receipt =>
      if !validateReceipt receipt then (points, ⟨400, Body.error "The receipt is invalid."⟩)
      else (points.set id (calculatePoints pf receipt), ⟨200, Body.id id⟩)

/-- Go `getPoints`: the store (never written) and the response. -/
def getPoints (points : Store) (id : String) : Store × Response :=
  match points id with
  | some pts => (points, ⟨200, Body.points pts⟩)
  | none => (points, ⟨404, Body.error "No receipt found for that ID."⟩)

/-- A request to the service, with the library inputs of its handler. -/
inductive Request where
  | process (bound : Option Receipt) (id : String) : Request
  | lookup (id : String) : Request

/-- One request handled on a store. -/
def handle (pf : Platform) (points : Store) : Request → Store × Response
  | Request.process bound id => processReceipt pf points bound id
  | Request.lookup id => getPoints points id

/-- The store after a sequence of requests, handled in order. -/
def run (pf : Platform) (points : Store) : List Request → Store
  | [] => points
  | req :: rest => run pf (handle pf points req).1 rest

/-- The receipts accepted during a sequence of requests, each with the
identifier returned for it, in the order of the requests. -/
def acceptedLog : List Request → List (String × Receipt)
  | [] => []
  | Request.process (some receipt) id :: rest =>
      if validateReceipt receipt then (id, receipt) :: acceptedLog rest else acceptedLog rest
  | _ :: rest => acceptedLog rest

/-- Every identifier generated for an accepted receipt is new: it is not a key
of the store at the time it is generated.  This is the uniqueness that the
specification requires of the identifier generator. -/
def freshIds (pf : Platform) (points : Store) : List Request → Bool
  | [] => true
  | Request.process (some receipt) id :: rest =>
      (if validateReceipt receipt then (points id).isNone else true) &&
        freshIds pf (handle pf points (Request.process (some receipt) id)).1 rest
  | req :: rest => freshIds pf (handle pf points req).1 rest

/-- A purchase time in the form the data model describes: two digits, a colon,
two digits, with the hour below 24 and the minute below 60. -/
def IsClockTime (s : List Char) : Prop :=
  ∃ h m : Nat, h < 24 ∧ m < 60 ∧ s = pad2 h ++ ':' :: pad2 m

/-- What the two rules of the total (rules 2 and 3) add together. -/
def totalPoints (pf : Platform) (total : String) : Int :=
  roundDollarPoints total + quarterPoints pf total

/-- A receipt whose total and whose second price are not numbers. -/
def unparsedReceipt : Receipt :=
  { retailer := "Target"
    purchaseDate := "2022-01-01"
    purchaseTime := "13:01"
    items := [⟨"abc", "10.00"⟩, ⟨"abc", "x"⟩, ⟨"abcdef", "5.00"⟩]
    total := "abc" }

/-- A well-formed receipt whose only description is a single space. -/
def blankDescriptionReceipt : Receipt :=
  { retailer := "Target"
    purchaseDate := "2022-01-02"
    purchaseTime := "13:01"
    items := [⟨" ", "5.00"⟩]
    total := "5.00" }

/-- A well-formed receipt with an empty date and the time `14:xx`. -/
def malformedTimeReceipt : Receipt :=
  { retailer := "Target"
    purchaseDate := ""
    purchaseTime := "14:xx"
    items := [⟨"Gatorade", "2.25"⟩]
    total := "2.25" }

/-- A well-formed receipt with an empty date and an empty time. -/
def undatedReceipt : Receipt :=
  { retailer := "Target"
    purchaseDate := ""
    purchaseTime := ""
    items := [⟨"Gatorade", "2.25"⟩]
    total := "2.25" }

/-! # Theorems -/

set_option maxRecDepth 100000

/-! ## Go `int` arithmetic -/

theorem wrap64_wrap64_add (a b : Int) : wrap64 (wrap64 a + b) = wrap64 (a + b) := by
  unfold wrap64
  omega

theorem wrap64_add_wrap64 (a b : Int) : wrap64 (a + wrap64 b) = wrap64 (a + b) := by
  unfold wrap64
  omega

theorem wrap64_of_inRange {x : Int} (h1 : -(2 ^ 63) ≤ x) (h2 : x < 2 ^ 63) : wrap64 x = x := by
  unfold wrap64
  omega

theorem wrap64_wrap64 (a : Int) : wrap64 (wrap64 a) = wrap64 a := by
  unfold wrap64
  omega

theorem itemsLoop_eq (pf : Platform) (items : List Item) (s : Int) :
    itemsLoop pf items (wrap64 s) = wrap64 (s + descriptionPoints pf items) := by
  induction items generalizing s with
  | nil => simp [itemsLoop, descriptionPoints]
  | cons item rest ih =>
    simp only [itemsLoop, descriptionPoints, List.map_cons, List.sum_cons]
    simp only [descriptionPoints] at ih
    simp only [itemPoints]
    split
    · split
      · rw [wrap64_wrap64_add, wrap64_add_wrap64, ih]
        unfold wrap64
        omega
      · rw [ih]; simp
    · rw [ih]; simp

theorem wrap64_step (c : Prop) [Decidable c] (s v : Int) :
    (if c then wrap64 (wrap64 s + v) else wrap64 s) = wrap64 (s + (if c then v else 0)) := by
  split
  · rw [wrap64_wrap64_add]
  · simp

theorem calculatePoints_eq_wrap_rulesSum (pf : Platform) (receipt : Receipt) :
    calculatePoints pf receipt = wrap64 (rulesSum pf receipt) := by
  have hdate : ∀ s : Int,
      (match parseDate receipt.purchaseDate.data with
        | some date => if date.day % 2 ≠ 0 then wrap64 (wrap64 s + 6) else wrap64 s
        | none => wrap64 s) = wrap64 (s + datePoints receipt.purchaseDate) := by
    intro s
    unfold datePoints
    split
    · exact wrap64_step _ s 6
    · simp
  have htime : ∀ s : Int,
      (match Split ':' receipt.purchaseTime.data with
        | [h, _] => if 14 ≤ Atoi h ∧ Atoi h < 16 then wrap64 (wrap64 s + 10) else wrap64 s
        | _ => wrap64 s) = wrap64 (s + timePoints receipt.purchaseTime) := by
    intro s
    unfold timePoints
    split
    · exact wrap64_step _ s 10
    · simp
  have hquarter : ∀ s : Int,
      (match ParseFloat pf receipt.total with
        | some total =>
            if Int.tmod (F64.toInt pf (F64.mul total float100)) 25 = 0 then
              wrap64 (wrap64 s + 25)
            else wrap64 s
        | none => wrap64 s) = wrap64 (s + quarterPoints pf receipt.total) := by
    intro s
    unfold quarterPoints
    split
    · exact wrap64_step _ s 25
    · simp
  have hround : ∀ s : Int,
      (if HasSuffix receipt.total.data ".00".data then wrap64 (wrap64 s + 50) else wrap64 s)
        = wrap64 (s + roundDollarPoints receipt.total) := by
    intro s
    unfold roundDollarPoints
    exact wrap64_step _ s 50
  simp only [calculatePoints, zero_add]
  rw [hround, hquarter, wrap64_wrap64_add, itemsLoop_eq, hdate, htime]
  rfl

/-! ## Correctness of the derivative matcher -/

namespace Regex

theorem matches_empty_iff (u : List Char) : Matches empty u ↔ False := by
  constructor
  · intro h; cases h
  · intro h; exact h.elim

theorem matches_eps_iff (u : List Char) : Matches eps u ↔ u = [] := by
  constructor
  · intro h; cases h; rfl
  · rintro rfl; exact Matches.eps

theorem matches_cls_iff (p : Char → Bool) (u : List Char) :
    Matches (cls p) u ↔ ∃ c, p c = true ∧ u = [c] := by
  constructor
  · intro h; cases h with
    | cls hc => exact ⟨_, hc, rfl⟩
  · rintro ⟨c, hc, rfl⟩; exact Matches.cls hc

theorem matches_alt_iff (a b : Regex) (u : List Char) :
    Matches (alt a b) u ↔ Matches a u ∨ Matches b u := by
  constructor
  · intro h; cases h with
    | altL h => exact Or.inl h
    | altR h => exact Or.inr h
  · rintro (h | h)
    · exact Matches.altL h
    · exact Matches.altR h

theorem matches_cat_iff (a b : Regex) (u : List Char) :
    Matches (cat a b) u ↔ ∃ s t, u = s ++ t ∧ Matches a s ∧ Matches b t := by
  constructor
  · intro h; cases h with
    | cat ha hb => exact ⟨_, _, rfl, ha, hb⟩
  · rintro ⟨s, t, rfl, ha, hb⟩; exact Matches.cat ha hb

theorem nullable_iff (r : Regex) : nullable r = true ↔ Matches r [] := by
  induction r with
  | empty => simp [nullable, matches_empty_iff]
  | eps => simp [nullable, matches_eps_iff]
  | cls p => simp [nullable, matches_cls_iff]
  | alt a b iha ihb => simp [nullable, matches_alt_iff, iha, ihb]
  | cat a b iha ihb =>
    simp only [nullable, Bool.and_eq_true, iha, ihb, matches_cat_iff]
    constructor
    · rintro ⟨ha, hb⟩; exact ⟨[], [], rfl, ha, hb⟩
    · rintro ⟨s, t, h, ha, hb⟩
      have hs : s = [] := by
        cases s with
        | nil => rfl
        | cons x xs => simp at h
      have ht : t = [] := by
        subst hs
        simpa using h.symm
      subst hs; subst ht
      exact ⟨ha, hb⟩
  | star a _ => simp [nullable, Matches.starNil]

theorem matches_star_cons {a : Regex} {u : List Char} (h : Matches (star a) u) :
    ∀ c s, u = c :: s → ∃ s1 t, s = s1 ++ t ∧ Matches a (c :: s1) ∧ Matches (star a) t := by
  generalize hr : star a = r at h
  induction h with
  | eps => cases hr
  | cls _ => cases hr
  | altL _ _ => cases hr
  | altR _ _ => cases hr
  | cat _ _ _ _ => cases hr
  | starNil => intro c s hu; cases hu
  | @starCons a' s' t' ha hst _ iht =>
    cases hr
    intro c s hu
    cases s' with
    | nil => exact iht rfl c s (by simpa using hu)
    | cons x xs =>
      simp only [List.cons_append, List.cons.injEq] at hu
      obtain ⟨rfl, rfl⟩ := hu
      exact ⟨xs, t', rfl, ha, hst⟩

theorem deriv_iff (r : Regex) (c : Char) (s : List Char) :
    Matches (deriv r c) s ↔ Matches r (c :: s) := by
  induction r generalizing s with
  | empty => simp [deriv, matches_empty_iff]
  | eps => simp [deriv, matches_empty_iff, matches_eps_iff]
  | cls p =>
    simp only [deriv, matches_cls_iff]
    by_cases hp : p c = true
    · simp only [hp, if_true, matches_eps_iff]
      constructor
      · rintro rfl; exact ⟨c, hp, rfl⟩
      · rintro ⟨d, _, hd⟩
        simp only [List.cons.injEq] at hd
        exact hd.2
    · have hp' : p c = false := by simpa using hp
      simp only [hp', Bool.false_eq_true, if_false, matches_empty_iff, false_iff, not_exists,
        not_and]
      intro d hd h
      simp only [List.cons.injEq] at h
      rw [h.1] at hp
      exact absurd hd hp
  | alt a b iha ihb => simp [deriv, matches_alt_iff, iha, ihb]
  | cat a b iha ihb =>
    have key : Matches (cat a b) (c :: s) ↔
        (∃ s1 t, s = s1 ++ t ∧ Matches a (c :: s1) ∧ Matches b t) ∨
          (Matches a [] ∧ Matches b (c :: s)) := by
      rw [matches_cat_iff]
      constructor
      · rintro ⟨u, t, h, ha, hb⟩
        cases u with
        | nil =>
          simp only [List.nil_append] at h
          subst h
          exact Or.inr ⟨ha, hb⟩
        | cons x xs =>
          simp only [List.cons_append, List.cons.injEq] at h
          obtain ⟨rfl, rfl⟩ := h
          exact Or.inl ⟨xs, t, rfl, ha, hb⟩
      · rintro (⟨s1, t, rfl, ha, hb⟩ | ⟨ha, hb⟩)
        · exact ⟨c :: s1, t, rfl, ha, hb⟩
        · exact ⟨[], c :: s, rfl, ha, hb⟩
    rw [key]
    simp only [deriv]
    by_cases hn : nullable a = true
    · simp only [hn, if_true, matches_alt_iff, matches_cat_iff, iha, ihb]
      rw [nullable_iff] at hn
      simp [hn]
    · have hn' : nullable a = false := by simpa using hn
      rw [nullable_iff] at hn
      simp only [hn', Bool.false_eq_true, if_false, matches_cat_iff, iha]
      simp [hn]
  | star a iha =>
    simp only [deriv, matches_cat_iff, iha]
    constructor
    · rintro ⟨s1, t, rfl, ha, ht⟩
      exact Matches.starCons ha ht
    · intro h
      exact matches_star_cons h c s rfl

theorem matchString_iff (r : Regex) (s : List Char) :
    matchString r s = true ↔ Matches r s := by
  unfold matchString
  induction s generalizing r with
  | nil => simpa using nullable_iff r
  | cons c s ih =>
    rw [List.foldl_cons, ih, deriv_iff]

theorem matches_star_cls_iff (p : Char → Bool) (u : List Char) :
    Matches (star (cls p)) u ↔ ∀ c ∈ u, p c = true := by
  induction u with
  | nil => simp [Matches.starNil]
  | cons x xs ih =>
    constructor
    · intro h
      obtain ⟨s1, t, rfl, ha, ht⟩ := matches_star_cons h x xs rfl
      rw [matches_cls_iff] at ha
      obtain ⟨d, hd, he⟩ := ha
      simp only [List.cons.injEq] at he
      obtain ⟨rfl, rfl⟩ := he
      simp only [List.nil_append] at ih
      intro c hc
      rcases List.mem_cons.mp hc with rfl | hc
      · exact hd
      · exact ih.mp ht c hc
    · intro h
      have h1 : Matches (cls p) [x] := Matches.cls (h x (List.mem_cons_self _ _))
      have h2 : Matches (star (cls p)) xs :=
        ih.mpr (fun c hc => h c (List.mem_cons_of_mem _ hc))
      exact Matches.starCons h1 h2

theorem matches_plus_cls_iff (p : Char → Bool) (u : List Char) :
    Matches (plus (cls p)) u ↔ u ≠ [] ∧ ∀ c ∈ u, p c = true := by
  unfold plus
  rw [matches_cat_iff]
  constructor
  · rintro ⟨s, t, rfl, ha, ht⟩
    rw [matches_cls_iff] at ha
    obtain ⟨d, hd, rfl⟩ := ha
    rw [matches_star_cls_iff] at ht
    refine ⟨by simp, ?_⟩
    intro c hc
    simp only [List.singleton_append, List.mem_cons] at hc
    rcases hc with rfl | hc
    · exact hd
    · exact ht c hc
  · rintro ⟨hne, h⟩
    cases u with
    | nil => exact absurd rfl hne
    | cons x xs =>
      refine ⟨[x], xs, rfl, Matches.cls (h x (List.mem_cons_self _ _)), ?_⟩
      rw [matches_star_cls_iff]
      exact fun c hc => h c (List.mem_cons_of_mem _ hc)

end Regex

theorem matches_decimalPattern_iff (u : List Char) :
    Regex.matchString decimalPattern u = true ↔ DecimalForm u := by
  rw [Regex.matchString_iff]
  unfold decimalPattern DecimalForm
  constructor
  · intro h
    rw [Regex.matches_cat_iff] at h
    obtain ⟨ip, t, rfl, hip, ht⟩ := h
    rw [Regex.matches_cat_iff] at ht
    obtain ⟨dot, t2, rfl, hdot, ht2⟩ := ht
    rw [Regex.matches_cat_iff] at ht2
    obtain ⟨a, b, rfl, ha, hb⟩ := ht2
    rw [Regex.matches_cls_iff] at hdot ha hb
    obtain ⟨x, hx, rfl⟩ := hdot
    obtain ⟨d1, hd1, rfl⟩ := ha
    obtain ⟨d2, hd2, rfl⟩ := hb
    rw [Regex.matches_plus_cls_iff] at hip
    have hx' : x = '.' := by simpa using hx
    subst hx'
    exact ⟨ip, d1, d2, hip.1, hip.2, hd1, hd2, rfl⟩
  · rintro ⟨ip, d1, d2, hne, hall, hd1, hd2, rfl⟩
    refine Regex.Matches.cat ((Regex.matches_plus_cls_iff _ _).mpr ⟨hne, hall⟩) ?_
    exact Regex.Matches.cat (s := ['.']) (Regex.Matches.cls (by simp))
      (Regex.Matches.cat (s := [d1]) (t := [d2]) (Regex.Matches.cls hd1) (Regex.Matches.cls hd2))

/-! ## Validation -/

theorem isDigit_iff (c : Char) : isDigit c = true ↔ IsDecimalDigit c := by
  simp [isDigit, IsDecimalDigit]

theorem isWord_iff (c : Char) : isWord c = true ↔ IsWordChar c := by
  simp only [isWord, isAlnum, IsWordChar, IsAsciiLetter, IsDecimalDigit, Bool.or_eq_true,
    Bool.and_eq_true, decide_eq_true_eq, beq_iff_eq]
  tauto

theorem isReSpace_iff (c : Char) : isReSpace c = true ↔ IsPatternSpace c := by
  simp only [isReSpace, IsPatternSpace, Bool.or_eq_true, beq_iff_eq]
  tauto

theorem retailerClass_iff (c : Char) :
    retailerClass c = true ↔ IsWordChar c ∨ IsPatternSpace c ∨ c = '-' ∨ c = '&' := by
  simp only [retailerClass, Bool.or_eq_true, isWord_iff, isReSpace_iff, beq_iff_eq]
  tauto

theorem descClass_iff (c : Char) :
    descClass c = true ↔ IsWordChar c ∨ IsPatternSpace c ∨ c = '-' := by
  simp only [descClass, Bool.or_eq_true, isWord_iff, isReSpace_iff, beq_iff_eq]
  tauto

theorem validateItems_eq_all (items : List Item) :
    validateItems items = items.all (fun item =>
      Regex.matchString shortDescriptionPattern item.shortDescription.data &&
        Regex.matchString decimalPattern item.price.data) := by
  induction items with
  | nil => rfl
  | cons item rest ih =>
    simp only [validateItems, List.all_cons, ih]
    cases Regex.matchString shortDescriptionPattern item.shortDescription.data <;>
      cases Regex.matchString decimalPattern item.price.data <;> simp

theorem validateReceipt_eq_and (receipt : Receipt) :
    validateReceipt receipt =
      (Regex.matchString retailerPattern receipt.retailer.data &&
        Regex.matchString decimalPattern receipt.total.data &&
        receipt.items.all (fun item =>
          Regex.matchString shortDescriptionPattern item.shortDescription.data &&
            Regex.matchString decimalPattern item.price.data)) := by
  simp only [validateReceipt, validateItems_eq_all]
  cases Regex.matchString retailerPattern receipt.retailer.data <;>
    cases Regex.matchString decimalPattern receipt.total.data <;> simp

/-- C2: `validateReceipt` returns true exactly when the retailer is non-empty and
made of word characters, whitespace, `-` and `&`; the total is digits, a point and
two digits; and every item has a non-empty description of word characters,
whitespace and `-` and a price of the same decimal form.  The result is the
boolean AND of the per-field pattern matches (so their order is immaterial), and
with no items it is the AND of the retailer and total checks alone. -/
theorem validateReceipt_iff (receipt : Receipt) :
    (validateReceipt receipt = true ↔
      (receipt.retailer.data ≠ [] ∧
        ∀ c ∈ receipt.retailer.data, IsWordChar c ∨ IsPatternSpace c ∨ c = '-' ∨ c = '&') ∧
      DecimalForm receipt.total.data ∧
      ∀ item ∈ receipt.items,
        (item.shortDescription.data ≠ [] ∧
          ∀ c ∈ item.shortDescription.data, IsWordChar c ∨ IsPatternSpace c ∨ c = '-') ∧
        DecimalForm item.price.data) ∧
    validateReceipt receipt =
      (receipt.items.all (fun item =>
          Regex.matchString decimalPattern item.price.data &&
            Regex.matchString shortDescriptionPattern item.shortDescription.data) &&
        Regex.matchString decimalPattern receipt.total.data &&
        Regex.matchString retailerPattern receipt.retailer.data) ∧
    validateReceipt { receipt with items := [] } =
      (Regex.matchString retailerPattern receipt.retailer.data &&
        Regex.matchString decimalPattern receipt.total.data) := by
  refine ⟨?_, ?_, ?_⟩
  · rw [validateReceipt_eq_and]
    simp only [Bool.and_eq_true, List.all_eq_true, matches_decimalPattern_iff]
    simp only [retailerPattern, shortDescriptionPattern, Regex.matchString_iff,
      Regex.matches_plus_cls_iff, retailerClass_iff, descClass_iff]
    tauto
  · rw [validateReceipt_eq_and]
    have : (fun item : Item =>
        Regex.matchString decimalPattern item.price.data &&
          Regex.matchString shortDescriptionPattern item.shortDescription.data) =
        (fun item : Item =>
        Regex.matchString shortDescriptionPattern item.shortDescription.data &&
          Regex.matchString decimalPattern item.price.data) := by
      funext item
      exact Bool.and_comm _ _
    rw [this]
    cases Regex.matchString retailerPattern receipt.retailer.data <;>
      cases Regex.matchString decimalPattern receipt.total.data <;> simp
  · rw [validateReceipt_eq_and]
    simp

/-! ## Retailer, item-pair and round-dollar rules -/

theorem findAllCount_cls (p : Char → Bool) (s : List Char) :
    findAllCount (Regex.cls p) s = s.countP p := by
  induction s with
  | nil => rfl
  | cons c s ih =>
    simp only [findAllCount, Regex.deriv, List.countP_cons, ih]
    by_cases hp : p c = true
    · simp [hp, Regex.nullable]
    · have hp' : p c = false := by simpa using hp
      simp [hp', Regex.nullable]

theorem isAlnum_iff (c : Char) : isAlnum c = true ↔ IsAsciiLetter c ∨ IsDecimalDigit c := by
  simp only [isAlnum, IsAsciiLetter, IsDecimalDigit, Bool.or_eq_true, Bool.and_eq_true,
    decide_eq_true_eq]

/-- C5: the retailer rule adds the number of characters of the retailer that are
letters `a`-`z`, `A`-`Z` or digits `0`-`9`; inserting any character anywhere adds 1
when it is such a character and 0 otherwise. -/
theorem retailerPoints_eq_count (retailer : String) :
    retailerPoints retailer =
        (retailer.data.countP (fun c => decide (IsAsciiLetter c ∨ IsDecimalDigit c)) : Nat) ∧
      ∀ (pre post : List Char) (c : Char),
        retailerPoints ⟨pre ++ c :: post⟩ =
          retailerPoints ⟨pre ++ post⟩ + (if IsAsciiLetter c ∨ IsDecimalDigit c then 1 else 0) := by
  have hfun : isAlnum = (fun c => decide (IsAsciiLetter c ∨ IsDecimalDigit c)) := by
    funext c
    rw [Bool.eq_iff_iff, isAlnum_iff]
    simp
  have hcount : ∀ s : String, retailerPoints s =
      (s.data.countP (fun c => decide (IsAsciiLetter c ∨ IsDecimalDigit c)) : Nat) := by
    intro s
    simp only [retailerPoints, alnumPattern, findAllCount_cls, hfun]
  refine ⟨hcount retailer, ?_⟩
  intro pre post c
  rw [hcount, hcount]
  simp only [List.countP_append, List.countP_cons]
  by_cases h : IsAsciiLetter c ∨ IsDecimalDigit c
  · simp only [h, decide_True, if_true]
    push_cast
    ring
  · simp only [h, decide_False, Bool.false_eq_true, if_false]
    push_cast
    ring

/-- C8: the item-pair rule adds `floor(n / 2) * 5` for a receipt with `n` items,
whatever the items are; 0, 1, 2, 3 and 4 items give 0, 0, 5, 5 and 10. -/
theorem pairPoints_eq (items : List Item) :
    pairPoints items = ⌊(items.length : ℚ) / 2⌋ * 5 ∧
      pairPoints items = pairPoints (List.replicate items.length ⟨"", ""⟩) ∧
      ∀ a b c d : Item, pairPoints [] = 0 ∧ pairPoints [a] = 0 ∧ pairPoints [a, b] = 5 ∧
        pairPoints [a, b, c] = 5 ∧ pairPoints [a, b, c, d] = 10 := by
  refine ⟨?_, ?_, ?_⟩
  · unfold pairPoints
    congr 1
    have h := Nat.floor_div_eq_div (α := ℚ) items.length 2
    rw [← Int.natCast_floor_eq_floor (by positivity)]
    exact_mod_cast h.symm
  · simp [pairPoints]
  · intro a b c d
    simp [pairPoints]

theorem HasSuffix_iff (s suffix : List Char) :
    HasSuffix s suffix = true ↔ ∃ p, s = p ++ suffix := by
  simp only [HasSuffix, Bool.and_eq_true, decide_eq_true_eq, beq_iff_eq]
  constructor
  · rintro ⟨_, h⟩
    refine ⟨s.take (s.length - suffix.length), ?_⟩
    conv_lhs => rw [← List.take_append_drop (s.length - suffix.length) s]
    rw [h]
  · rintro ⟨p, rfl⟩
    refine ⟨by simp, ?_⟩
    simp

/-- C9: the round-dollar rule adds 50 exactly when the total ends with the three
characters `.00`, and 0 otherwise. -/
theorem roundDollarPoints_iff (total : String) :
    (roundDollarPoints total = 50 ↔ ∃ p, total.data = p ++ ['.', '0', '0']) ∧
      (roundDollarPoints total = 0 ↔ ¬ ∃ p, total.data = p ++ ['.', '0', '0']) := by
  have h := HasSuffix_iff total.data ".00".data
  have hd : ".00".data = ['.', '0', '0'] := rfl
  rw [hd] at h
  unfold roundDollarPoints
  rw [hd]
  by_cases hs : HasSuffix total.data ['.', '0', '0'] = true
  · simp only [hs, if_true, true_iff]
    exact ⟨h.mp hs, by simpa using h.mp hs⟩
  · have hn : ¬ ∃ p, total.data = p ++ ['.', '0', '0'] := fun hp => hs (h.mpr hp)
    simp only [hs, if_false]
    exact ⟨by simpa using hn, by simpa using hn⟩

/-! ## Afternoon rule: `strings.Split` and `strconv.Atoi` -/

theorem Split_ne_nil (sep : Char) (s : List Char) : Split sep s ≠ [] := by
  cases s with
  | nil => simp [Split]
  | cons c s =>
    simp only [Split]
    split
    · simp
    · split <;> simp

theorem Split_of_not_mem (sep : Char) (h : List Char) (hh : sep ∉ h) : Split sep h = [h] := by
  induction h with
  | nil => rfl
  | cons c s ih =>
    have hc : (c == sep) = false := by
      simp only [beq_eq_false_iff_ne, ne_eq]
      intro e
      exact hh (e ▸ List.mem_cons_self _ _)
    have hs : sep ∉ s := fun e => hh (List.mem_cons_of_mem _ e)
    simp [Split, hc, ih hs]

theorem Split_append_sep (sep : Char) (h rest : List Char) (hh : sep ∉ h) :
    Split sep (h ++ sep :: rest) = h :: Split sep rest := by
  induction h with
  | nil => simp [Split]
  | cons c s ih =>
    have hc : (c == sep) = false := by
      simp only [beq_eq_false_iff_ne, ne_eq]
      intro e
      exact hh (e ▸ List.mem_cons_self _ _)
    have hs : sep ∉ s := fun e => hh (List.mem_cons_of_mem _ e)
    simp [Split, hc, ih hs]

theorem Split_head (sep : Char) (s : List Char) :
    ∃ h rest, Split sep s = h :: rest ∧ sep ∉ h ∧
      ((rest = [] ∧ s = h) ∨ (∃ s', s = h ++ sep :: s' ∧ rest = Split sep s')) := by
  induction s with
  | nil => exact ⟨[], [], rfl, by simp, Or.inl ⟨rfl, rfl⟩⟩
  | cons c s ih =>
    by_cases hc : c = sep
    · subst hc
      exact ⟨[], Split c s, by simp [Split], by simp, Or.inr ⟨s, rfl, rfl⟩⟩
    · obtain ⟨h, rest, he, hn, hcase⟩ := ih
      have hc' : (c == sep) = false := by simpa using hc
      refine ⟨c :: h, rest, by simp [Split, hc', he], ?_, ?_⟩
      · intro hm
        rcases List.mem_cons.mp hm with e | e
        · exact hc e.symm
        · exact hn e
      · rcases hcase with ⟨h1, h2⟩ | ⟨s', h1, h2⟩
        · exact Or.inl ⟨h1, by rw [h2]⟩
        · exact Or.inr ⟨s', by rw [h1]; rfl, h2⟩

theorem Split_eq_pair_iff (sep : Char) (s h m : List Char) :
    Split sep s = [h, m] ↔ s = h ++ sep :: m ∧ sep ∉ h ∧ sep ∉ m := by
  constructor
  · intro hs
    obtain ⟨h1, rest, he, hn, hcase⟩ := Split_head sep s
    rw [hs] at he
    simp only [List.cons.injEq] at he
    obtain ⟨rfl, hrest⟩ := he
    rcases hcase with ⟨h1, _⟩ | ⟨s', h1, h2⟩
    · rw [h1] at hrest; simp at hrest
    · obtain ⟨h2', rest2, he2, hn2, hcase2⟩ := Split_head sep s'
      rw [← h2, ← hrest] at he2
      simp only [List.cons.injEq] at he2
      obtain ⟨rfl, hr2⟩ := he2
      rcases hcase2 with ⟨_, e⟩ | ⟨s'', _, e2⟩
      · subst e
        exact ⟨h1, hn, hn2⟩
      · exact absurd (hr2 ▸ e2).symm (Split_ne_nil sep s'')
  · rintro ⟨rfl, hh, hm⟩
    rw [Split_append_sep sep h m hh, Split_of_not_mem sep m hm]

theorem foldl_dec_ge (ds : List Char) (acc : Nat) :
    acc ≤ ds.foldl (fun a c => 10 * a + digitVal c) acc := by
  induction ds generalizing acc with
  | nil => simp
  | cons c ds ih =>
    simp only [List.foldl_cons]
    exact le_trans (by omega) (ih _)

theorem parseUintLoop_some (ds : List Char) (acc v : Nat)
    (h : parseUintLoop acc ds = some v) :
    v = 2 ^ 64 - 1 ∨
      ((∀ c ∈ ds, isDigit c = true) ∧ v = ds.foldl (fun a c => 10 * a + digitVal c) acc) := by
  induction ds generalizing acc with
  | nil =>
    simp only [parseUintLoop, Option.some.injEq] at h
    exact Or.inr ⟨by simp, by simp [h]⟩
  | cons c ds ih =>
    simp only [parseUintLoop] at h
    by_cases hc : isDigit c = true
    · simp only [hc, if_true] at h
      by_cases ho : 2 ^ 64 ≤ 10 * acc + digitVal c
      · simp only [ho, if_true, Option.some.injEq] at h
        exact Or.inl h.symm
      · simp only [ho, if_false] at h
        rcases ih _ h with h1 | ⟨h1, h2⟩
        · exact Or.inl h1
        · refine Or.inr ⟨?_, by simpa using h2⟩
          intro x hx
          rcases List.mem_cons.mp hx with rfl | hx
          · exact hc
          · exact h1 x hx
    · simp [hc] at h

theorem parseUintLoop_digits (ds : List Char) (acc : Nat) (hd : ∀ c ∈ ds, isDigit c = true)
    (hv : ds.foldl (fun a c => 10 * a + digitVal c) acc < 2 ^ 64) :
    parseUintLoop acc ds = some (ds.foldl (fun a c => 10 * a + digitVal c) acc) := by
  induction ds generalizing acc with
  | nil => simp [parseUintLoop]
  | cons c ds ih =>
    simp only [List.foldl_cons] at hv
    have hc : isDigit c = true := hd c (List.mem_cons_self _ _)
    have hle := foldl_dec_ge ds (10 * acc + digitVal c)
    have ho : ¬ 2 ^ 64 ≤ 10 * acc + digitVal c := by omega
    simp only [parseUintLoop, hc, if_true, ho, if_false, List.foldl_cons]
    exact ih _ (fun x hx => hd x (List.mem_cons_of_mem _ hx)) hv

theorem Atoi_afternoon_iff (h : List Char) :
    (14 ≤ Atoi h ∧ Atoi h < 16) ↔ ∃ v, IsIntegerLiteral h v ∧ 14 ≤ v ∧ v < 16 := by
  constructor
  · intro hr
    unfold Atoi at hr
    simp only at hr
    by_cases hb : (if (h.head? == some '-' || h.head? == some '+') = true then h.tail
        else h).isEmpty = true
    · rw [if_pos hb] at hr
      omega
    · rw [if_neg hb] at hr
      cases hp : parseUintLoop 0
          (if (h.head? == some '-' || h.head? == some '+') = true then h.tail else h) with
      | none =>
        rw [hp] at hr
        simp only at hr
        omega
      | some un =>
        rw [hp] at hr
        simp only at hr
        have hneg : (h.head? == some '-') = false := by
          by_contra hcon
          have : (h.head? == some '-') = true := by simpa using hcon
          rw [this] at hr
          simp only [clampInt, if_true] at hr
          split at hr <;> omega
        rw [hneg] at hr hp hb
        simp only [clampInt, Bool.false_eq_true, if_false, Bool.false_or] at hr hp hb
        have hun : un = 14 ∨ un = 15 := by
          split at hr <;> omega
        rcases parseUintLoop_some _ 0 un hp with h1 | ⟨h1, h2⟩
        · omega
        · by_cases hplus : (h.head? == some '+') = true
          · rw [if_pos hplus] at h1 h2 hb
            cases h with
            | nil => simp at hplus
            | cons x xs =>
              simp only [List.head?_cons, beq_iff_eq, Option.some.injEq] at hplus
              subst hplus
              simp only [List.tail_cons] at h1 h2 hb
              refine ⟨un, ⟨xs, by simpa using hb, h1, Or.inr (Or.inl ⟨rfl, ?_⟩)⟩, ?_⟩
              · rw [h2]; rfl
              · omega
          · rw [if_neg hplus] at h1 h2 hb
            refine ⟨un, ⟨h, by simpa using hb, h1, Or.inl ⟨rfl, ?_⟩⟩, ?_⟩
            · rw [h2]; rfl
            · omega
  · rintro ⟨v, ⟨ds, hne, hd, hcase⟩, h14, h16⟩
    have hval : ∀ w : Nat, (14 : Int) ≤ w → (w : Int) < 16 → decimalValue ds = w →
        parseUintLoop 0 ds = some w := by
      intro w h1 h2 he
      have := parseUintLoop_digits ds 0 hd (by
        change decimalValue ds < 2 ^ 64
        rw [he]
        have : w < 16 := by exact_mod_cast h2
        omega)
      rw [this]
      exact congrArg some he
    have hhead : ∀ x xs, ds = x :: xs → x ≠ '-' ∧ x ≠ '+' := by
      intro x xs e
      have hx : isDigit x = true := hd x (e ▸ List.mem_cons_self _ _)
      constructor
      · rintro rfl; revert hx; decide
      · rintro rfl; revert hx; decide
    rcases hcase with ⟨rfl, hv⟩ | ⟨rfl, hv⟩ | ⟨rfl, hv⟩
    · cases hds : h with
      | nil => exact absurd hds hne
      | cons x xs =>
        obtain ⟨hm, hp⟩ := hhead x xs hds
        have hw := hval (decimalValue h) (hv ▸ h14) (hv ▸ h16) rfl
        rw [hds] at hw
        have e1 : ((x :: xs).head? == some '-') = false := by simpa using hm
        have e2 : ((x :: xs).head? == some '+') = false := by simpa using hp
        simp only [Atoi, e1, e2, Bool.or_self, Bool.false_eq_true, if_false, List.isEmpty_cons,
          hw, clampInt]
        rw [hds] at hv
        split <;> omega
    · have hw := hval (decimalValue ds) (hv ▸ h14) (hv ▸ h16) rfl
      have hne' : ds.isEmpty = false := by
        cases ds with
        | nil => exact absurd rfl hne
        | cons _ _ => rfl
      have e1 : (('+' :: ds).head? == some '-') = false := by
        simp only [List.head?_cons]
        decide
      have e2 : (('+' :: ds).head? == some '+') = true := by simp
      simp only [Atoi, e1, e2, Bool.false_or, if_true, List.tail_cons, hne', Bool.false_eq_true,
        if_false, hw, clampInt]
      split <;> omega
    · omega

/-- C6: the afternoon rule adds 10 exactly when the time splits on `:` into
exactly two fields and the first is an integer `h` with `14 <= h < 16`, whatever
the second field is; in every other case it adds 0.  `14:00` and `15:59` earn 10;
`13:59`, `16:00` and `14:00:00` earn 0. -/
theorem timePoints_iff (purchaseTime : String) :
    (timePoints purchaseTime = 10 ↔
      ∃ hour minute v, purchaseTime.data = hour ++ ':' :: minute ∧ ':' ∉ hour ∧
        ':' ∉ minute ∧ IsIntegerLiteral hour v ∧ 14 ≤ v ∧ v < 16) ∧
      (timePoints purchaseTime = 10 ∨ timePoints purchaseTime = 0) ∧
      timePoints "14:00" = 10 ∧ timePoints "15:59" = 10 ∧ timePoints "13:59" = 0 ∧
      timePoints "16:00" = 0 ∧ timePoints "14:00:00" = 0 := by
  refine ⟨?_, ?_, by decide, by decide, by decide, by decide, by decide⟩
  · unfold timePoints
    split
    · next h m heq =>
      rw [Split_eq_pair_iff] at heq
      obtain ⟨hd, hh, hm⟩ := heq
      constructor
      · intro h10
        have hc : 14 ≤ Atoi h ∧ Atoi h < 16 := by
          by_contra hcon
          rw [if_neg hcon] at h10
          omega
        obtain ⟨v, hv, h1, h2⟩ := (Atoi_afternoon_iff h).mp hc
        exact ⟨h, m, v, hd, hh, hm, hv, h1, h2⟩
      · rintro ⟨hour, minute, v, hd', hh', hm', hv, h1, h2⟩
        have hs : Split ':' purchaseTime.data = [hour, minute] :=
          (Split_eq_pair_iff _ _ _ _).mpr ⟨hd', hh', hm'⟩
        have hs' : Split ':' purchaseTime.data = [h, m] :=
          (Split_eq_pair_iff _ _ _ _).mpr ⟨hd, hh, hm⟩
        rw [hs] at hs'
        simp only [List.cons.injEq, and_true] at hs'
        obtain ⟨rfl, rfl⟩ := hs'
        rw [if_pos ((Atoi_afternoon_iff hour).mpr ⟨v, hv, h1, h2⟩)]
    · next hne =>
      constructor
      · intro h; omega
      · rintro ⟨hour, minute, v, hd', hh', hm', _⟩
        exact absurd ((Split_eq_pair_iff _ _ _ _).mpr ⟨hd', hh', hm'⟩) (hne hour minute)
  · unfold timePoints
    split
    · split
      · exact Or.inl rfl
      · exact Or.inr rfl
    · exact Or.inr rfl

/-! ## Odd-day rule: `time.Parse` -/

theorem digitChar_facts :
    ∀ k < 10, isDigit (Char.ofNat (48 + k)) = true ∧ digitVal (Char.ofNat (48 + k)) = k := by
  decide

theorem isDigit_digitChar (n : Nat) : isDigit (digitChar n) = true :=
  (digitChar_facts (n % 10) (Nat.mod_lt _ (by decide))).1

theorem digitVal_digitChar (n : Nat) : digitVal (digitChar n) = n % 10 :=
  (digitChar_facts (n % 10) (Nat.mod_lt _ (by decide))).2

theorem isDigit_toNat (c : Char) (h : isDigit c = true) : 48 ≤ c.toNat ∧ c.toNat ≤ 57 := by
  simp only [isDigit, Bool.and_eq_true, decide_eq_true_eq] at h
  obtain ⟨h1, h2⟩ := h
  have h1' : ('0' : Char).toNat ≤ c.toNat := h1
  have h2' : c.toNat ≤ ('9' : Char).toNat := h2
  exact ⟨h1', h2'⟩

theorem digitVal_lt (c : Char) (h : isDigit c = true) : digitVal c < 10 := by
  have := isDigit_toNat c h
  unfold digitVal
  omega

theorem digitChar_digitVal (c : Char) (h : isDigit c = true) : digitChar (digitVal c) = c := by
  have hb := isDigit_toNat c h
  unfold digitChar digitVal
  have : 48 + (c.toNat - 48) % 10 = c.toNat := by omega
  rw [this]
  exact Char.ofNat_toNat c

theorem digitChar_eq_of_mod (c : Char) (n : Nat) (h : isDigit c = true)
    (hn : n % 10 = digitVal c) : digitChar n = c := by
  have h1 := digitChar_digitVal c h
  have h2 := digitVal_lt c h
  unfold digitChar at h1 ⊢
  rw [hn]
  rw [Nat.mod_eq_of_lt h2] at h1
  exact h1

theorem daysIn_eq_monthLength (year month : Nat) (h1 : 1 ≤ month) (h2 : month ≤ 12) :
    daysIn month year = monthLength year month := by
  unfold daysIn monthLength isLeap
  interval_cases month <;> simp

theorem parseDate_iff (s : List Char) (date : Date) :
    parseDate s = some date ↔
      date.year ≤ 9999 ∧ 1 ≤ date.month ∧ date.month ≤ 12 ∧ 1 ≤ date.day ∧
        date.day ≤ monthLength date.year date.month ∧
        s = isoDate date.year date.month date.day := by
  constructor
  · intro h
    unfold parseDate at h
    split at h
    · next y1 y2 y3 y4 m1 m2 d1 d2 =>
      split at h
      · next hdig =>
        simp only [Bool.and_eq_true] at hdig
        obtain ⟨⟨⟨⟨⟨⟨⟨hy1, hy2⟩, hy3⟩, hy4⟩, hm1⟩, hm2⟩, hd1⟩, hd2⟩ := hdig
        have b1 := digitVal_lt _ hy1
        have b2 := digitVal_lt _ hy2
        have b3 := digitVal_lt _ hy3
        have b4 := digitVal_lt _ hy4
        have b5 := digitVal_lt _ hm1
        have b6 := digitVal_lt _ hm2
        have b7 := digitVal_lt _ hd1
        have b8 := digitVal_lt _ hd2
        simp only [decimalValue, List.foldl_cons, List.foldl_nil, Nat.mul_zero, Nat.zero_add] at h
        split at h
        · exact absurd h (by simp)
        · next hmon =>
          split at h
          · exact absurd h (by simp)
          · next hday =>
            simp only [Option.some.injEq] at h
            subst h
            simp only at hmon hday ⊢
            rw [daysIn_eq_monthLength _ _ (by omega) (by omega)] at hday
            refine ⟨by omega, by omega, by omega, by omega, by omega, ?_⟩
            simp only [isoDate, pad4, pad2, List.cons_append, List.nil_append]
            have e1 : digitChar ((10 * (10 * (10 * digitVal y1 + digitVal y2) + digitVal y3) +
                digitVal y4) / 1000) = y1 :=
              digitChar_eq_of_mod y1 _ hy1 (by omega)
            have e2 : digitChar ((10 * (10 * (10 * digitVal y1 + digitVal y2) + digitVal y3) +
                digitVal y4) / 100) = y2 :=
              digitChar_eq_of_mod y2 _ hy2 (by omega)
            have e3 : digitChar ((10 * (10 * (10 * digitVal y1 + digitVal y2) + digitVal y3) +
                digitVal y4) / 10) = y3 :=
              digitChar_eq_of_mod y3 _ hy3 (by omega)
            have e4 : digitChar (10 * (10 * (10 * digitVal y1 + digitVal y2) + digitVal y3) +
                digitVal y4) = y4 :=
              digitChar_eq_of_mod y4 _ hy4 (by omega)
            have e5 : digitChar ((10 * digitVal m1 + digitVal m2) / 10) = m1 :=
              digitChar_eq_of_mod m1 _ hm1 (by omega)
            have e6 : digitChar (10 * digitVal m1 + digitVal m2) = m2 :=
              digitChar_eq_of_mod m2 _ hm2 (by omega)
            have e7 : digitChar ((10 * digitVal d1 + digitVal d2) / 10) = d1 :=
              digitChar_eq_of_mod d1 _ hd1 (by omega)
            have e8 : digitChar (10 * digitVal d1 + digitVal d2) = d2 :=
              digitChar_eq_of_mod d2 _ hd2 (by omega)
            rw [e1, e2, e3, e4, e5, e6, e7, e8]
      · exact absurd h (by simp)
    · exact absurd h (by simp)
  · rintro ⟨hy, hm1, hm2, hd1, hd2, rfl⟩
    obtain ⟨year, month, day⟩ := date
    simp only at hy hm1 hm2 hd1 hd2 ⊢
    have hml : monthLength year month ≤ 31 := by
      unfold monthLength
      interval_cases month <;> simp only [] <;> first | omega | (split <;> omega)
    simp only [isoDate, pad4, pad2, List.cons_append, List.nil_append, parseDate,
      isDigit_digitChar, Bool.and_self, if_true, decimalValue, List.foldl_cons, List.foldl_nil,
      digitVal_digitChar, Nat.mul_zero, Nat.zero_add]
    have ey : 10 * (10 * (10 * (year / 1000 % 10) + year / 100 % 10) + year / 10 % 10) +
        year % 10 = year := by omega
    have em : 10 * (month / 10 % 10) + month % 10 = month := by omega
    have ed : 10 * (day / 10 % 10) + day % 10 = day := by omega
    rw [ey, em, ed, daysIn_eq_monthLength _ _ hm1 hm2]
    rw [if_neg (by omega), if_neg (by omega)]

/-- C7: the odd-day rule adds 6 exactly when the purchase date is a valid
calendar date written `YYYY-MM-DD` (month 01 to 12, day within the month's
length, leap years respected) whose day of the month is odd; otherwise it adds 0. -/
theorem datePoints_iff (purchaseDate : String) :
    (datePoints purchaseDate = 6 ↔
      ∃ year month day, year ≤ 9999 ∧ 1 ≤ month ∧ month ≤ 12 ∧ 1 ≤ day ∧
        day ≤ monthLength year month ∧ day % 2 = 1 ∧
        purchaseDate.data = isoDate year month day) ∧
      (datePoints purchaseDate = 6 ∨ datePoints purchaseDate = 0) := by
  constructor
  · unfold datePoints
    split
    · next date heq =>
      rw [parseDate_iff] at heq
      obtain ⟨hy, hm1, hm2, hd1, hd2, hs⟩ := heq
      constructor
      · intro h6
        have hodd : date.day % 2 ≠ 0 := by
          intro hcon
          rw [if_neg (not_not.mpr hcon)] at h6
          omega
        exact ⟨date.year, date.month, date.day, hy, hm1, hm2, hd1, hd2, by omega, hs⟩
      · rintro ⟨year, month, day, hy', hm1', hm2', hd1', hd2', hodd, hs'⟩
        have h1 : parseDate purchaseDate.data = some date :=
          (parseDate_iff _ _).mpr ⟨hy, hm1, hm2, hd1, hd2, hs⟩
        have h2 : parseDate purchaseDate.data = some ⟨year, month, day⟩ :=
          (parseDate_iff _ _).mpr ⟨hy', hm1', hm2', hd1', hd2', hs'⟩
        rw [h1] at h2
        simp only [Option.some.injEq] at h2
        subst h2
        rw [if_pos (by simp only; omega)]
    · next hnone =>
      constructor
      · intro h; omega
      · rintro ⟨year, month, day, hy', hm1', hm2', hd1', hd2', hodd, hs'⟩
        have h2 : parseDate purchaseDate.data = some ⟨year, month, day⟩ :=
          (parseDate_iff _ _).mpr ⟨hy', hm1', hm2', hd1', hd2', hs'⟩
        rw [hnone] at h2
        exact absurd h2 (by simp)
  · unfold datePoints
    split
    · split
      · exact Or.inl rfl
      · exact Or.inr rfl
    · exact Or.inr rfl

/-! ## Quarter-multiple rule -/

/-- C3 (evaluation at the failing input): the total `2.01` has the required
decimal form and is 201 cents, not a multiple of 25, yet the quarter-multiple
rule adds 25: `2.01 * 100` is `200.99999999999997` in `float64` and `int`
truncates it to 200. -/
theorem quarterPoints_two_01 :
    Regex.matchString decimalPattern "2.01".data = true ∧ cents "2.01" = 201 ∧
      cents "2.01" % 25 = 1 ∧
      (∀ pf : Platform, ParseFloat pf "2.01" = some (F64.fin false 4526117625507348 (-51))) ∧
      (∀ pf : Platform,
        F64.toInt pf (F64.mul (F64.fin false 4526117625507348 (-51)) float100) = 200) ∧
      ∀ pf : Platform, quarterPoints pf "2.01" = 25 :=
  ⟨by decide, by decide, by decide, fun _ => rfl, fun _ => rfl, fun _ => rfl⟩

/-! ## `float64`: rounding lemmas -/

theorem bitLenAux_zero (fuel : Nat) : bitLenAux fuel 0 = 0 := by
  cases fuel <;> simp [bitLenAux]

theorem bitLenAux_spec (fuel n : Nat) (h : n ≤ fuel) :
    n < 2 ^ bitLenAux fuel n ∧ (0 < n → 2 ^ bitLenAux fuel n ≤ 2 * n) := by
  induction fuel generalizing n with
  | zero =>
    have : n = 0 := by omega
    subst this
    simp [bitLenAux]
  | succ fuel ih =>
    by_cases hn : n = 0
    · subst hn
      simp [bitLenAux]
    · simp only [bitLenAux, hn, if_false]
      obtain ⟨h1, h2⟩ := ih (n / 2) (by omega)
      rw [pow_succ]
      constructor
      · omega
      · intro _
        by_cases hh : n / 2 = 0
        · rw [hh, bitLenAux_zero]
          omega
        · have := h2 (by omega)
          omega

theorem bitLen_spec (n : Nat) : n < 2 ^ bitLen n ∧ (0 < n → 2 ^ bitLen n ≤ 2 * n) :=
  bitLenAux_spec n n le_rfl

theorem two_zpow_toNat (e : Int) (h : 0 ≤ e) : ((2 ^ e.toNat : Nat) : ℚ) = (2 : ℚ) ^ e := by
  push_cast
  rw [← zpow_natCast, Int.toNat_of_nonneg h]

theorem two_zpow_neg_toNat (e : Int) (h : e ≤ 0) :
    ((2 ^ (-e).toNat : Nat) : ℚ) = ((2 : ℚ) ^ e)⁻¹ := by
  push_cast
  rw [← zpow_natCast, Int.toNat_of_nonneg (by omega), zpow_neg]

theorem pow2Le_sound (e : Int) (num den : Nat) (hd : 0 < den) (h : pow2Le e num den = true) :
    (2 : ℚ) ^ e ≤ (num : ℚ) / den := by
  have hd' : (0 : ℚ) < den := by exact_mod_cast hd
  rw [le_div_iff₀ hd']
  unfold pow2Le at h
  by_cases he : 0 ≤ e
  · simp only [he, if_true, decide_eq_true_eq] at h
    have h' : ((2 ^ e.toNat * den : Nat) : ℚ) ≤ num := by exact_mod_cast h
    rw [Nat.cast_mul, two_zpow_toNat e he] at h'
    exact h'
  · simp only [he, if_false, decide_eq_true_eq] at h
    have h' : ((den : Nat) : ℚ) ≤ ((num * 2 ^ (-e).toNat : Nat) : ℚ) := by exact_mod_cast h
    rw [Nat.cast_mul, two_zpow_neg_toNat e (by omega)] at h'
    have hp : (0 : ℚ) < (2 : ℚ) ^ e := by positivity
    calc (2 : ℚ) ^ e * den ≤ (2 : ℚ) ^ e * (num * ((2 : ℚ) ^ e)⁻¹) :=
          mul_le_mul_of_nonneg_left h' hp.le
      _ = num := by field_simp

theorem floorLog2_le (num den : Nat) (hn : 0 < num) (hd : 0 < den) :
    (2 : ℚ) ^ floorLog2 num den ≤ (num : ℚ) / den := by
  unfold floorLog2
  simp only
  split
  · next h => exact pow2Le_sound _ _ _ hd h
  · have h1 := (bitLen_spec num).2 hn
    have h2 := (bitLen_spec den).1
    have hd' : (0 : ℚ) < den := by exact_mod_cast hd
    have h1' : (2 : ℚ) ^ (bitLen num : Int) ≤ 2 * num := by
      rw [zpow_natCast]
      exact_mod_cast h1
    have h2' : (den : ℚ) ≤ (2 : ℚ) ^ (bitLen den : Int) := by
      rw [zpow_natCast]
      exact_mod_cast h2.le
    rw [le_div_iff₀ hd']
    have e1 : (2 : ℚ) ^ ((bitLen num : Int) - (bitLen den : Int) - 1) =
        (2 : ℚ) ^ (bitLen num : Int) / ((2 : ℚ) ^ (bitLen den : Int) * 2) := by
      rw [zpow_sub₀ (by norm_num), zpow_sub₀ (by norm_num), zpow_one]
      field_simp
    rw [e1]
    have hp : (0 : ℚ) < (2 : ℚ) ^ (bitLen den : Int) := by positivity
    rw [div_mul_eq_mul_div, div_le_iff₀ (by positivity)]
    nlinarith

theorem roundChoice_spec (p q : Nat) (hq : 0 < q) :
    (∀ J : Nat, J * q ≤ p → J ≤ roundHalfEven p q) ∧
    (∀ J : Nat, p ≤ J * q → roundHalfEven p q ≤ J) := by
  unfold roundHalfEven
  have hdm := Nat.div_add_mod p q
  constructor
  · intro J hJ
    have h1 : J ≤ p / q := (Nat.le_div_iff_mul_le hq).mpr hJ
    split
    · exact h1
    · split <;> omega
  · intro J hJ
    have h1 : p / q ≤ J := by
      by_contra hcon
      have : J + 1 ≤ p / q := by omega
      have h2 : (J + 1) * q ≤ p := (Nat.le_div_iff_mul_le hq).mp this
      nlinarith
    have h2 : 0 < p % q → p / q + 1 ≤ J := by
      intro hr
      by_contra hcon
      have hJe : J = p / q := by omega
      rw [hJe] at hJ
      have : q * (p / q) = p / q * q := Nat.mul_comm _ _
      omega
    split
    · exact h1
    · split
      · exact h2 (by omega)
      · have hle : p / q % 2 ≤ 1 := by omega
        have : 0 < p % q := by omega
        have := h2 this
        omega

theorem scaled_le_iff (num den : Nat) (hd : 0 < den) (ex : Int) (J : Nat) :
    ((J : ℚ) * (2 : ℚ) ^ ex ≤ (num : ℚ) / den ↔
      J * (if 0 ≤ ex then den * 2 ^ ex.toNat else den) ≤
        (if 0 ≤ ex then num else num * 2 ^ (-ex).toNat)) ∧
    ((num : ℚ) / den ≤ (J : ℚ) * (2 : ℚ) ^ ex ↔
      (if 0 ≤ ex then num else num * 2 ^ (-ex).toNat) ≤
        J * (if 0 ≤ ex then den * 2 ^ ex.toNat else den)) := by
  have hd' : (0 : ℚ) < den := by exact_mod_cast hd
  have hp : (0 : ℚ) < (2 : ℚ) ^ ex := by positivity
  by_cases he : 0 ≤ ex
  · simp only [he, if_true]
    rw [le_div_iff₀ hd', div_le_iff₀ hd']
    have e1 : ((J * (den * 2 ^ ex.toNat) : Nat) : ℚ) = (J : ℚ) * (2 : ℚ) ^ ex * den := by
      rw [Nat.cast_mul, Nat.cast_mul, two_zpow_toNat ex he]
      ring
    rw [← e1]
    exact ⟨Nat.cast_le, Nat.cast_le⟩
  · simp only [he, if_false]
    rw [le_div_iff₀ hd', div_le_iff₀ hd']
    have e1 : ((num * 2 ^ (-ex).toNat : Nat) : ℚ) = (num : ℚ) * ((2 : ℚ) ^ ex)⁻¹ := by
      rw [Nat.cast_mul, two_zpow_neg_toNat ex (by omega)]
    constructor
    · rw [← Nat.cast_le (α := ℚ), e1, Nat.cast_mul, le_mul_inv_iff₀ hp]
      constructor <;> intro h <;> linarith
    · rw [← Nat.cast_le (α := ℚ), e1, Nat.cast_mul, mul_inv_le_iff₀ hp]
      constructor <;> intro h <;> linarith

theorem roundNearestEven_spec (neg : Bool) (num den : Nat) (hn : 0 < num) (hd : 0 < den) :
    ∃ m : Nat,
      ((roundNearestEven neg num den = F64.inf neg ∧ 1023 ≤ floorLog2 num den) ∨
        roundNearestEven neg num den =
          F64.fin neg m (max (floorLog2 num den) (-1022) - 52)) ∧
      (∀ J : Nat, (J : ℚ) * (2 : ℚ) ^ (max (floorLog2 num den) (-1022) - 52) ≤ (num : ℚ) / den →
        J ≤ m) ∧
      (∀ J : Nat, (num : ℚ) / den ≤ (J : ℚ) * (2 : ℚ) ^ (max (floorLog2 num den) (-1022) - 52) →
        m ≤ J) := by
  have hq : 0 < (if 0 ≤ max (floorLog2 num den) (-1022) - 52 then
      den * 2 ^ (max (floorLog2 num den) (-1022) - 52).toNat else den) := by
    split
    · positivity
    · exact hd
  obtain ⟨c1, c2⟩ := roundChoice_spec
    (if 0 ≤ max (floorLog2 num den) (-1022) - 52 then num
      else num * 2 ^ (-(max (floorLog2 num den) (-1022) - 52)).toNat)
    (if 0 ≤ max (floorLog2 num den) (-1022) - 52 then
      den * 2 ^ (max (floorLog2 num den) (-1022) - 52).toNat else den) hq
  refine ⟨_, ?_, fun J hJ => c1 J ((scaled_le_iff num den hd _ J).1.mp hJ),
    fun J hJ => c2 J ((scaled_le_iff num den hd _ J).2.mp hJ)⟩
  unfold roundNearestEven
  rw [if_neg (by omega)]
  simp only
  by_cases hov : 1024 ≤ floorLog2 num den ∨ (floorLog2 num den = 1023 ∧
      roundHalfEven
        (if 0 ≤ max (floorLog2 num den) (-1022) - 52 then num
          else num * 2 ^ (-(max (floorLog2 num den) (-1022) - 52)).toNat)
        (if 0 ≤ max (floorLog2 num den) (-1022) - 52 then
          den * 2 ^ (max (floorLog2 num den) (-1022) - 52).toNat else den) = 2 ^ 53)
  · left
    rw [if_pos hov]
    refine ⟨rfl, ?_⟩
    rcases hov with h | h
    · omega
    · exact h.1.ge
  · right
    rw [if_neg hov]

theorem grid_mul (j : Nat) (F ex : Int) (h : ex ≤ F) :
    ((j * 2 ^ (F - ex).toNat : Nat) : ℚ) * (2 : ℚ) ^ ex = (j : ℚ) * (2 : ℚ) ^ F := by
  rw [Nat.cast_mul, two_zpow_toNat (F - ex) (by omega), mul_assoc, ← zpow_add₀ (by norm_num)]
  congr 2
  omega

theorem below_binade (j : Nat) (F e : Int) (hj : j < 2 ^ 53) (h : F < e - 52) :
    (j : ℚ) * (2 : ℚ) ^ F < (2 : ℚ) ^ e := by
  have hj' : (j : ℚ) < (2 : ℚ) ^ (53 : Int) := by
    have : ((2 : ℚ) ^ (53 : Int)) = ((2 ^ 53 : Nat) : ℚ) := by norm_num
    rw [this]
    exact_mod_cast hj
  have hp : (0 : ℚ) < (2 : ℚ) ^ F := by positivity
  calc (j : ℚ) * (2 : ℚ) ^ F < (2 : ℚ) ^ (53 : Int) * (2 : ℚ) ^ F :=
        mul_lt_mul_of_pos_right hj' hp
    _ = (2 : ℚ) ^ (53 + F) := by rw [zpow_add₀ (by norm_num)]
    _ ≤ (2 : ℚ) ^ e := zpow_le_zpow_right₀ (by norm_num) (by omega)

theorem binade_start (e : Int) :
    ((2 ^ 52 : Nat) : ℚ) * (2 : ℚ) ^ (e - 52) = (2 : ℚ) ^ e := by
  have : ((2 ^ 52 : Nat) : ℚ) = (2 : ℚ) ^ (52 : Int) := by norm_num
  rw [this, ← zpow_add₀ (by norm_num)]
  congr 1
  omega

/-- Rounding never goes below a representable number that the exact value
reaches. -/
theorem roundNearestEven_ge (neg : Bool) (num den : Nat) (hd : 0 < den) (j : Nat) (F : Int)
    (hj : j < 2 ^ 53) (hF : -1074 ≤ F) (h : (j : ℚ) * (2 : ℚ) ^ F ≤ (num : ℚ) / den)
    (m : Nat) (E : Int) (hr : roundNearestEven neg num den = F64.fin neg m E) :
    (j : ℚ) * (2 : ℚ) ^ F ≤ (m : ℚ) * (2 : ℚ) ^ E := by
  have hpF : (0 : ℚ) < (2 : ℚ) ^ F := by positivity
  have hpE : (0 : ℚ) < (2 : ℚ) ^ E := by positivity
  by_cases hn : num = 0
  · subst hn
    simp only [Nat.cast_zero, zero_div] at h
    have hj0 : (j : ℚ) ≤ 0 := by
      by_contra hcon
      push_neg at hcon
      have := mul_pos hcon hpF
      linarith
    have : (0 : ℚ) ≤ (m : ℚ) * (2 : ℚ) ^ E := by positivity
    nlinarith
  · have hn' : 0 < num := Nat.pos_of_ne_zero hn
    obtain ⟨m0, hcase, hlo, _⟩ := roundNearestEven_spec neg num den hn' hd
    rcases hcase with ⟨hinf, _⟩ | hfin
    · rw [hinf] at hr
      cases hr
    · rw [hfin] at hr
      simp only [F64.fin.injEq, true_and] at hr
      obtain ⟨rfl, rfl⟩ := hr
      by_cases hc : max (floorLog2 num den) (-1022) - 52 ≤ F
      · have hJ := hlo (j * 2 ^ (F - (max (floorLog2 num den) (-1022) - 52)).toNat)
          (by rw [grid_mul j F _ hc]; exact h)
        rw [← grid_mul j F _ hc]
        exact mul_le_mul_of_nonneg_right (by exact_mod_cast hJ) (by positivity)
      · have hmax : max (floorLog2 num den) (-1022) = floorLog2 num den := by omega
        rw [hmax] at hc hlo ⊢
        have h1 := below_binade j F (floorLog2 num den) hj (by omega)
        have h2 := hlo (2 ^ 52) (by rw [binade_start]; exact floorLog2_le num den hn' hd)
        have h3 : ((2 ^ 52 : Nat) : ℚ) * (2 : ℚ) ^ (floorLog2 num den - 52) ≤
            (m0 : ℚ) * (2 : ℚ) ^ (floorLog2 num den - 52) :=
          mul_le_mul_of_nonneg_right (by exact_mod_cast h2) (by positivity)
        rw [binade_start] at h3
        linarith

/-- Rounding never goes above a representable number that bounds the exact
value, and does not overflow below `2^1023`. -/
theorem roundNearestEven_le (neg : Bool) (num den : Nat) (hd : 0 < den) (j : Nat) (F : Int)
    (hj : j < 2 ^ 53) (hF : -1074 ≤ F) (h : (num : ℚ) / den ≤ (j : ℚ) * (2 : ℚ) ^ F)
    (hb : (j : ℚ) * (2 : ℚ) ^ F < (2 : ℚ) ^ (1023 : Int)) :
    ∃ m E, roundNearestEven neg num den = F64.fin neg m E ∧
      (m : ℚ) * (2 : ℚ) ^ E ≤ (j : ℚ) * (2 : ℚ) ^ F := by
  by_cases hn : num = 0
  · subst hn
    refine ⟨0, 0, by simp [roundNearestEven], ?_⟩
    have : (0 : ℚ) ≤ (j : ℚ) * (2 : ℚ) ^ F := by positivity
    simpa using this
  · have hn' : 0 < num := Nat.pos_of_ne_zero hn
    obtain ⟨m0, hcase, _, hhi⟩ := roundNearestEven_spec neg num den hn' hd
    have hfl := floorLog2_le num den hn' hd
    rcases hcase with ⟨_, hbig⟩ | hfin
    · exfalso
      have : (2 : ℚ) ^ (1023 : Int) ≤ (2 : ℚ) ^ floorLog2 num den :=
        zpow_le_zpow_right₀ (by norm_num) hbig
      linarith
    · refine ⟨m0, _, hfin, ?_⟩
      by_cases hc : max (floorLog2 num den) (-1022) - 52 ≤ F
      · have hJ := hhi (j * 2 ^ (F - (max (floorLog2 num den) (-1022) - 52)).toNat)
          (by rw [grid_mul j F _ hc]; exact h)
        rw [← grid_mul j F _ hc]
        exact mul_le_mul_of_nonneg_right (by exact_mod_cast hJ) (by positivity)
      · exfalso
        have hmax : max (floorLog2 num den) (-1022) = floorLog2 num den := by omega
        rw [hmax] at hc
        have h1 := below_binade j F (floorLog2 num den) hj (by omega)
        linarith

theorem toInt_of_bounds (pf : Platform) (m : Nat) (E : Int) (k : Nat)
    (h1 : (k : ℚ) ≤ (m : ℚ) * (2 : ℚ) ^ E) (h2 : (m : ℚ) * (2 : ℚ) ^ E < (k : ℚ) + 1)
    (hk : k < 2 ^ 63) : F64.toInt pf (F64.fin false m E) = (k : Int) := by
  have ht : (if 0 ≤ E then m * 2 ^ E.toNat else m / 2 ^ (-E).toNat) = k := by
    by_cases hE : 0 ≤ E
    · rw [if_pos hE]
      have e : ((m * 2 ^ E.toNat : Nat) : ℚ) = (m : ℚ) * (2 : ℚ) ^ E := by
        rw [Nat.cast_mul, two_zpow_toNat E hE]
      rw [← e] at h1 h2
      have a1 : k ≤ m * 2 ^ E.toNat := by exact_mod_cast h1
      have a2 : m * 2 ^ E.toNat < k + 1 := by exact_mod_cast h2
      omega
    · rw [if_neg hE]
      have hD : 0 < 2 ^ (-E).toNat := by positivity
      have hpE : (0 : ℚ) < (2 : ℚ) ^ E := by positivity
      have e : ((2 ^ (-E).toNat : Nat) : ℚ) = ((2 : ℚ) ^ E)⁻¹ :=
        two_zpow_neg_toNat E (by omega)
      have a1 : k * 2 ^ (-E).toNat ≤ m := by
        have : ((k * 2 ^ (-E).toNat : Nat) : ℚ) ≤ (m : ℚ) := by
          rw [Nat.cast_mul, e, mul_inv_le_iff₀ hpE]
          exact h1
        exact_mod_cast this
      have a2 : m < (k + 1) * 2 ^ (-E).toNat := by
        have : (m : ℚ) < (((k + 1) * 2 ^ (-E).toNat : Nat) : ℚ) := by
          rw [Nat.cast_mul, e, lt_mul_inv_iff₀ hpE]
          push_cast
          exact h2
        exact_mod_cast this
      apply Nat.le_antisymm
      · exact Nat.le_of_lt_succ ((Nat.div_lt_iff_lt_mul hD).mpr a2)
      · exact (Nat.le_div_iff_mul_le hD).mpr a1
  unfold F64.toInt
  simp only [ht, Bool.false_eq_true, if_false]
  rw [if_pos]
  constructor
  · have : (0 : Int) ≤ (k : Int) := Int.natCast_nonneg k
    omega
  · exact_mod_cast hk

theorem mul_exact (m1 : Nat) (e1 : Int) (m2 : Nat) (e2 : Int) :
    ∃ num den : Nat, 0 < den ∧
      F64.mul (F64.fin false m1 e1) (F64.fin false m2 e2) = roundNearestEven false num den ∧
      (num : ℚ) / den = (m1 : ℚ) * (2 : ℚ) ^ e1 * ((m2 : ℚ) * (2 : ℚ) ^ e2) := by
  by_cases he : 0 ≤ e1 + e2
  · refine ⟨m1 * m2 * 2 ^ (e1 + e2).toNat, 1, Nat.one_pos, ?_, ?_⟩
    · simp [F64.mul, he]
    · rw [Nat.cast_mul, two_zpow_toNat _ he, zpow_add₀ (by norm_num)]
      push_cast
      ring
  · refine ⟨m1 * m2, 2 ^ (-(e1 + e2)).toNat, by positivity, ?_, ?_⟩
    · simp [F64.mul, he]
    · rw [two_zpow_neg_toNat _ (by omega), zpow_add₀ (by norm_num)]
      push_cast
      field_simp
      ring

theorem float02_eq : float02 = F64.fin false 7205759403792794 (-55) := by decide

theorem float02_value :
    ((7205759403792794 : Nat) : ℚ) * (2 : ℚ) ^ (-55 : Int) = (2 ^ 54 + 1) / (5 * 2 ^ 54) := by
  norm_num

/-- For an amount of `c` cents below `10^14`, the float computation
`int(price * 0.2)` on the parsed price gives exactly `c / 500`. -/
theorem price_fifth (pf : Platform) (c : Nat) (hc : c < 10 ^ 14) :
    ∃ m E, roundNearestEven false c 100 = F64.fin false m E ∧
      F64.toInt pf (F64.mul (F64.fin false m E) float02) = ((c / 500 : Nat) : Int) := by
  have hk1 : 500 * (c / 500) ≤ c := Nat.mul_div_le c 500
  have hk2 : c < 500 * (c / 500) + 500 := by omega
  have hk3 : c / 500 < 2 * 10 ^ 11 := by omega
  generalize c / 500 = k at hk1 hk2 hk3
  have hkq : (k : ℚ) < 2 * 10 ^ 11 := by exact_mod_cast hk3
  have hk1q : (500 : ℚ) * k ≤ c := by exact_mod_cast hk1
  have hk2q : (c : ℚ) + 1 ≤ 500 * k + 500 := by exact_mod_cast hk2
  have hk0 : (0 : ℚ) ≤ k := Nat.cast_nonneg k
  -- the parsed price lies between 5k and 5k + 639/128
  obtain ⟨m, E, hp, hup⟩ := roundNearestEven_le false c 100 (by norm_num) (640 * k + 639) (-7)
    (by omega) (by norm_num)
    (by
      push_cast
      rw [div_le_iff₀ (by norm_num)]
      norm_num
      linarith)
    (by
      push_cast
      have : (2 : ℚ) ^ (53 : Int) ≤ (2 : ℚ) ^ (1023 : Int) :=
        zpow_le_zpow_right₀ (by norm_num) (by norm_num)
      have h53 : (2 : ℚ) ^ (53 : Int) = 9007199254740992 := by norm_num
      rw [h53] at this
      have e7 : (2 : ℚ) ^ (-7 : Int) = 1 / 128 := by norm_num
      rw [e7]
      linarith)
  have hlow := roundNearestEven_ge false c 100 (by norm_num) (5 * k) 0 (by omega) (by norm_num)
    (by
      push_cast
      rw [le_div_iff₀ (by norm_num)]
      norm_num
      linarith) m E hp
  refine ⟨m, E, hp, ?_⟩
  rw [float02_eq]
  obtain ⟨num, den, hden, hmul, hval⟩ := mul_exact m E 7205759403792794 (-55)
  rw [hmul]
  rw [float02_value] at hval
  have e7 : (2 : ℚ) ^ (-7 : Int) = 1 / 128 := by norm_num
  have e10 : (2 : ℚ) ^ (-10 : Int) = 1 / 1024 := by norm_num
  rw [e7] at hup
  push_cast at hup hlow
  simp only [zpow_zero, mul_one] at hlow
  have ht : ((2 : ℚ) ^ 54 + 1) / (5 * 2 ^ 54) = 18014398509481985 / 90071992547409920 := by
    norm_num
  rw [ht] at hval
  have hP0 : (0 : ℚ) ≤ (m : ℚ) * (2 : ℚ) ^ E := by positivity
  obtain ⟨m', E', hp', hup'⟩ := roundNearestEven_le false num den hden (1024 * k + 1023) (-10)
    (by omega) (by norm_num)
    (by
      rw [hval, e10]
      push_cast
      linarith)
    (by
      push_cast
      have : (2 : ℚ) ^ (53 : Int) ≤ (2 : ℚ) ^ (1023 : Int) :=
        zpow_le_zpow_right₀ (by norm_num) (by norm_num)
      have h53 : (2 : ℚ) ^ (53 : Int) = 9007199254740992 := by norm_num
      rw [h53] at this
      rw [e10]
      linarith)
  have hlow' := roundNearestEven_ge false num den hden k 0 (by omega) (by norm_num)
    (by
      rw [hval]
      simp only [zpow_zero, mul_one]
      linarith) m' E' hp'
  rw [hp']
  rw [e10] at hup'
  push_cast at hup'
  simp only [zpow_zero, mul_one] at hlow'
  exact toInt_of_bounds pf m' E' k hlow' (by linarith) (by omega)

/-! ## Description-length rule -/

theorem utf8Size_of_toNat_le (c : Char) (h : c.toNat ≤ 127) : c.utf8Size = 1 := by
  unfold Char.utf8Size
  have : c.val ≤ 0x7F := by
    show c.val.toNat ≤ 127
    exact h
  simp [this]

theorem toNat_le_of_descClass (c : Char) (h : descClass c = true) : c.toNat ≤ 127 := by
  simp only [descClass, isWord, isAlnum, isReSpace, Bool.or_eq_true, Bool.and_eq_true,
    decide_eq_true_eq, beq_iff_eq] at h
  have hz : ∀ d : Char, c ≤ d → c.toNat ≤ d.toNat := fun d hd => hd
  rcases h with ((((⟨_, h⟩ | ⟨_, h⟩) | ⟨_, h⟩) | h) | h) | h
  · exact le_trans (hz _ h) (by decide)
  · exact le_trans (hz _ h) (by decide)
  · exact le_trans (hz _ h) (by decide)
  · subst h; decide
  · rcases h with (((h | h) | h) | h) | h <;> subst h <;> decide
  · subst h; decide

theorem byteLen_eq_length (s : List Char) (h : ∀ c ∈ s, c.toNat ≤ 127) :
    byteLen s = s.length := by
  induction s with
  | nil => rfl
  | cons c s ih =>
    have hc := utf8Size_of_toNat_le c (h c (List.mem_cons_self _ _))
    have hs := ih (fun x hx => h x (List.mem_cons_of_mem _ hx))
    simp only [byteLen, List.map_cons, List.sum_cons, List.length_cons] at hs ⊢
    omega

theorem mem_of_mem_TrimSpace (s : List Char) (c : Char) (h : c ∈ TrimSpace s) : c ∈ s := by
  unfold TrimSpace at h
  rw [List.mem_reverse] at h
  have h1 := (List.dropWhile_sublist isUnicodeSpace).subset h
  rw [List.mem_reverse] at h1
  exact (List.dropWhile_sublist isUnicodeSpace).subset h1

theorem dropWhile_digits (ip rest : List Char) (h : ∀ c ∈ ip, isDigit c = true) :
    (ip ++ '.' :: rest).dropWhile isDigit = '.' :: rest := by
  induction ip with
  | nil =>
    have : isDigit '.' = false := by decide
    simp [List.dropWhile, this]
  | cons c ip ih =>
    have hc := h c (List.mem_cons_self _ _)
    simp only [List.cons_append, List.dropWhile_cons, hc, if_true]
    exact ih (fun x hx => h x (List.mem_cons_of_mem _ hx))

theorem takeWhile_digits (ip rest : List Char) (h : ∀ c ∈ ip, isDigit c = true) :
    (ip ++ '.' :: rest).takeWhile isDigit = ip := by
  induction ip with
  | nil =>
    have : isDigit '.' = false := by decide
    simp [List.takeWhile, this]
  | cons c ip ih =>
    have hc := h c (List.mem_cons_self _ _)
    simp only [List.cons_append, List.takeWhile_cons, hc, if_true]
    rw [ih (fun x hx => h x (List.mem_cons_of_mem _ hx))]

theorem ne_dot_of_isDigit (c : Char) (h : isDigit c = true) : (c != '.') = true := by
  simp only [bne_iff_ne, ne_eq]
  rintro rfl
  revert h
  decide

theorem filter_decimal (ip : List Char) (d1 d2 : Char) (h : ∀ c ∈ ip, isDigit c = true)
    (h1 : isDigit d1 = true) (h2 : isDigit d2 = true) :
    (ip ++ ['.', d1, d2]).filter (fun c => c != '.') = ip ++ [d1, d2] := by
  rw [List.filter_append]
  have e1 : ip.filter (fun c => c != '.') = ip :=
    List.filter_eq_self.mpr (fun c hc => ne_dot_of_isDigit c (h c hc))
  have e2 : ['.', d1, d2].filter (fun c => c != '.') = [d1, d2] := by
    simp [List.filter, ne_dot_of_isDigit d1 h1, ne_dot_of_isDigit d2 h2]
  rw [e1, e2]

theorem ParseFloat_decimal (pf : Platform) (s : String) (h : DecimalForm s.data) :
    ParseFloat pf s =
      match roundNearestEven false (cents s) 100 with
      | F64.fin n m e => some (F64.fin n m e)
      | _ => none := by
  obtain ⟨ip, d1, d2, hne, hall, h1, h2, hs⟩ := h
  have hc : cents s = decimalValue (ip ++ [d1, d2]) := by
    unfold cents
    rw [hs, filter_decimal ip d1 d2 hall h1 h2]
  have hip : ip.isEmpty = false := by
    cases ip with
    | nil => exact absurd rfl hne
    | cons _ _ => rfl
  unfold ParseFloat
  rw [hs, dropWhile_digits ip _ hall]
  simp only [takeWhile_digits ip _ hall, hip, Bool.not_false, List.isEmpty_cons, Bool.and_self,
    List.all_cons, h1, h2, List.all_nil, Bool.true_and, if_true, List.length_cons,
    List.length_nil]
  rw [hc]
  rfl

theorem itemPoints_valid (pf : Platform) (item : Item)
    (hd : ∀ c ∈ item.shortDescription.data, descClass c = true)
    (hp : DecimalForm item.price.data) (hb : cents item.price < 10 ^ 14) :
    itemPoints pf item =
      if (TrimSpace item.shortDescription.data).length % 3 = 0 then
        ((cents item.price / 500 : Nat) : Int) + 1
      else 0 := by
  have hlen : byteLen (TrimSpace item.shortDescription.data) =
      (TrimSpace item.shortDescription.data).length :=
    byteLen_eq_length _ (fun c hc =>
      toNat_le_of_descClass c (hd c (mem_of_mem_TrimSpace _ c hc)))
  obtain ⟨m, E, hr, hi⟩ := price_fifth pf (cents item.price) hb
  unfold itemPoints
  rw [hlen, ParseFloat_decimal pf item.price hp, hr]
  simp only [hi]
  split
  · apply wrap64_of_inRange
    · have : (0 : Int) ≤ ((cents item.price / 500 : Nat) : Int) := Int.natCast_nonneg _
      omega
    · have : cents item.price / 500 < 2 * 10 ^ 11 := by omega
      have : ((cents item.price / 500 : Nat) : Int) < 2 * 10 ^ 11 := by exact_mod_cast this
      omega
  · rfl

theorem validateReceipt_items (receipt : Receipt) (hv : validateReceipt receipt = true) :
    ∀ item ∈ receipt.items,
      (item.shortDescription.data ≠ [] ∧ ∀ c ∈ item.shortDescription.data, descClass c = true) ∧
        DecimalForm item.price.data := by
  rw [validateReceipt_eq_and] at hv
  simp only [Bool.and_eq_true, List.all_eq_true, matches_decimalPattern_iff] at hv
  intro item hi
  have := hv.2 item hi
  simp only [shortDescriptionPattern, Regex.matchString_iff, Regex.matches_plus_cls_iff] at this
  exact this

theorem descriptionPoints_eq_spec (pf : Platform) (items : List Item)
    (hv : ∀ item ∈ items,
      (∀ c ∈ item.shortDescription.data, descClass c = true) ∧ DecimalForm item.price.data)
    (hb : ∀ item ∈ items, cents item.price < 10 ^ 14) :
    descriptionPoints pf items = descriptionSpec items := by
  unfold descriptionPoints descriptionSpec
  congr 1
  apply List.map_congr_left
  intro item hi
  exact itemPoints_valid pf item (hv item hi).1 (hv item hi).2 (hb item hi)

theorem floor_fifth (c : Nat) : ⌊(c : ℚ) / 100 * (2 / 10)⌋ = ((c / 500 : Nat) : Int) := by
  have h : (c : ℚ) / 100 * (2 / 10) = (c : ℚ) / (500 : Nat) := by
    push_cast
    ring
  rw [h, ← Int.natCast_floor_eq_floor (by positivity), Nat.floor_div_eq_div]

/-- C4 (counterexample): the receipt `bigPriceReceipt` is accepted, its one
description has 3 characters and its price is `10^19 + 700` cents, so the claimed
contribution is `floor(cents / 500) + 1 = 2 * 10^16 + 2`; the code, computing in
`float64`, contributes `2 * 10^16 + 1`. -/
theorem descriptionPoints_bigPrice :
    validateReceipt bigPriceReceipt = true ∧
      descriptionSpec bigPriceReceipt.items = 20000000000000002 ∧
      descriptionPoints samplePlatform bigPriceReceipt.items = 20000000000000001 ∧
      ∀ pf : Platform, descriptionPoints pf bigPriceReceipt.items = 20000000000000001 :=
  ⟨by decide, by decide, by decide, fun _ => rfl⟩

/-- C4 (amended): for every receipt accepted by `validateReceipt` whose item
prices are all below `10^12` (fewer than `10^14` cents), the description-length
rule contributes the sum, over exactly the items whose trimmed short description
has a number of characters divisible by 3, of `floor(price * 0.2) + 1`, which is
`floor(cents / 500) + 1`; every other item contributes 0. -/
theorem descriptionPoints_of_valid (pf : Platform) (receipt : Receipt)
    (hv : validateReceipt receipt = true)
    (hb : ∀ item ∈ receipt.items, cents item.price < 10 ^ 14) :
    descriptionPoints pf receipt.items =
        (receipt.items.map (fun item =>
          if (TrimSpace item.shortDescription.data).length % 3 = 0 then
            ⌊(cents item.price : ℚ) / 100 * (2 / 10)⌋ + 1
          else 0)).sum ∧
      descriptionPoints pf receipt.items = descriptionSpec receipt.items := by
  have h := descriptionPoints_eq_spec pf receipt.items
    (fun item hi => ⟨((validateReceipt_items receipt hv) item hi).1.2,
      ((validateReceipt_items receipt hv) item hi).2⟩) hb
  refine ⟨?_, h⟩
  rw [h]
  unfold descriptionSpec
  congr 1
  apply List.map_congr_left
  intro item _
  rw [floor_fifth]

theorem descriptionPoints_of_valid_witness :
    validateReceipt exampleReceipt = true ∧
      (∀ item ∈ exampleReceipt.items, cents item.price < 10 ^ 14) ∧
      descriptionPoints samplePlatform exampleReceipt.items = 6 ∧
      descriptionPoints samplePlatform exampleReceipt.items =
        descriptionSpec exampleReceipt.items :=
  ⟨by decide, by decide, by decide,
    (descriptionPoints_of_valid samplePlatform exampleReceipt (by decide) (by decide)).2⟩

/-! ## The total -/

theorem quarterPoints_nonneg (pf : Platform) (total : String) : 0 ≤ quarterPoints pf total := by
  unfold quarterPoints
  split
  · split <;> omega
  · omega

theorem descriptionSpec_nonneg (items : List Item) : 0 ≤ descriptionSpec items := by
  unfold descriptionSpec
  apply List.sum_nonneg
  intro x hx
  rw [List.mem_map] at hx
  obtain ⟨item, _, rfl⟩ := hx
  split
  · have : (0 : Int) ≤ ((cents item.price / 500 : Nat) : Int) := Int.natCast_nonneg _
    omega
  · exact le_rfl

theorem rulesSum_nonneg (pf : Platform) (receipt : Receipt)
    (hv : validateReceipt receipt = true)
    (hb : ∀ item ∈ receipt.items, cents item.price < 10 ^ 14) : 0 ≤ rulesSum pf receipt := by
  have h5 := descriptionPoints_eq_spec pf receipt.items
    (fun item hi => ⟨((validateReceipt_items receipt hv) item hi).1.2,
      ((validateReceipt_items receipt hv) item hi).2⟩) hb
  have h1 : 0 ≤ retailerPoints receipt.retailer := Int.natCast_nonneg _
  have h2 : 0 ≤ roundDollarPoints receipt.total := by
    unfold roundDollarPoints; split <;> omega
  have h3 := quarterPoints_nonneg pf receipt.total
  have h4 : 0 ≤ pairPoints receipt.items := by
    unfold pairPoints
    have : (0 : Int) ≤ ((receipt.items.length / 2 : Nat) : Int) := Int.natCast_nonneg _
    omega
  have h5' := descriptionSpec_nonneg receipt.items
  have h6 : 0 ≤ datePoints receipt.purchaseDate := by
    unfold datePoints
    split
    · split <;> omega
    · omega
  have h7 : 0 ≤ timePoints receipt.purchaseTime := by
    unfold timePoints
    split
    · split <;> omega
    · omega
  unfold rulesSum
  rw [h5]
  omega

/-- C10 (counterexample): `overflowReceipt` is accepted by `validateReceipt` and
`calculatePoints` returns a negative number for it: its two items contribute
`8 * 10^18 + 1` each and the 64-bit `int` wraps around. -/
theorem calculatePoints_negative :
    validateReceipt overflowReceipt = true ∧
      calculatePoints samplePlatform overflowReceipt = -2446744073709551608 ∧
      calculatePoints samplePlatform overflowReceipt < 0 ∧
      ∀ pf : Platform, calculatePoints pf overflowReceipt = -2446744073709551608 :=
  ⟨by decide, by decide, by decide, fun _ => rfl⟩

/-- C10 (amended): for every receipt accepted by `validateReceipt` whose item
prices are all below `10^12` and whose seven contributions sum to less than
`2^63`, `calculatePoints` returns that sum, a non-negative integer; the result
is a function of the receipt (and of the platform) alone. -/
theorem calculatePoints_nonneg (pf : Platform) (receipt : Receipt)
    (hv : validateReceipt receipt = true)
    (hb : ∀ item ∈ receipt.items, cents item.price < 10 ^ 14)
    (hs : rulesSum pf receipt < 2 ^ 63) :
    0 ≤ calculatePoints pf receipt ∧ calculatePoints pf receipt = rulesSum pf receipt ∧
      ∀ other : Receipt, other = receipt → calculatePoints pf other = calculatePoints pf receipt := by
  have h0 := rulesSum_nonneg pf receipt hv hb
  have he : calculatePoints pf receipt = rulesSum pf receipt := by
    rw [calculatePoints_eq_wrap_rulesSum]
    exact wrap64_of_inRange (by omega) hs
  refine ⟨by rw [he]; exact h0, he, ?_⟩
  rintro other rfl
  rfl

theorem calculatePoints_nonneg_witness :
    validateReceipt exampleReceipt = true ∧
      (∀ item ∈ exampleReceipt.items, cents item.price < 10 ^ 14) ∧
      rulesSum samplePlatform exampleReceipt < 2 ^ 63 ∧
      calculatePoints samplePlatform exampleReceipt = 28 ∧
      0 ≤ calculatePoints samplePlatform exampleReceipt :=
  ⟨by decide, by decide, by decide, by decide,
    (calculatePoints_nonneg samplePlatform exampleReceipt (by decide) (by decide)
      (by decide)).1⟩

/-- C1 (counterexample): for `overflowReceipt` the seven contributions sum to
`16000000000000000008` but `calculatePoints` returns `-2446744073709551608`;
and against the same receipt without items, whose score is 1, the scores differ
by `-2446744073709551609` although the two item rules contribute
`16000000000000000007` more. -/
theorem calculatePoints_ne_sum :
    rulesSum samplePlatform overflowReceipt = 16000000000000000008 ∧
      calculatePoints samplePlatform overflowReceipt = -2446744073709551608 ∧
      calculatePoints samplePlatform { overflowReceipt with items := [] } = 1 ∧
      pairPoints overflowReceipt.items + descriptionPoints samplePlatform overflowReceipt.items
        - (pairPoints [] + descriptionPoints samplePlatform []) = 16000000000000000007 ∧
      ∀ pf : Platform, rulesSum pf overflowReceipt = 16000000000000000008 ∧
        calculatePoints pf overflowReceipt = -2446744073709551608 :=
  ⟨by decide, by decide, by decide, by decide, fun _ => ⟨rfl, rfl⟩⟩

/-- C1 (amended): `calculatePoints` returns the sum of seven contributions, each
a function of its own field only (rule 1 of the retailer, rules 2 and 3 of the
total, rules 4 and 5 of the items, rule 6 of the date, rule 7 of the time), with
no early exit, reduced to the 64-bit `int` range.  When the sum lies in the `int`
range the result is the sum itself, and the scores of two such receipts differ
by exactly the sum of the per-field differences of their contributions, hence by
the difference of one field's contributions when only that field differs. -/
theorem calculatePoints_sum (pf : Platform) (receipt : Receipt) :
    calculatePoints pf receipt =
        wrap64 (retailerPoints receipt.retailer + roundDollarPoints receipt.total +
          quarterPoints pf receipt.total + pairPoints receipt.items +
          descriptionPoints pf receipt.items + datePoints receipt.purchaseDate +
          timePoints receipt.purchaseTime) ∧
      (-(2 ^ 63) ≤ rulesSum pf receipt ∧ rulesSum pf receipt < 2 ^ 63 →
        calculatePoints pf receipt = rulesSum pf receipt) ∧
      ∀ other : Receipt,
        -(2 ^ 63) ≤ rulesSum pf receipt ∧ rulesSum pf receipt < 2 ^ 63 →
        -(2 ^ 63) ≤ rulesSum pf other ∧ rulesSum pf other < 2 ^ 63 →
        calculatePoints pf receipt - calculatePoints pf other =
          (retailerPoints receipt.retailer - retailerPoints other.retailer) +
          (roundDollarPoints receipt.total + quarterPoints pf receipt.total -
            (roundDollarPoints other.total + quarterPoints pf other.total)) +
          (pairPoints receipt.items + descriptionPoints pf receipt.items -
            (pairPoints other.items + descriptionPoints pf other.items)) +
          (datePoints receipt.purchaseDate - datePoints other.purchaseDate) +
          (timePoints receipt.purchaseTime - timePoints other.purchaseTime) := by
  have hex : ∀ r : Receipt, -(2 ^ 63) ≤ rulesSum pf r ∧ rulesSum pf r < 2 ^ 63 →
      calculatePoints pf r = rulesSum pf r := by
    intro r hr
    rw [calculatePoints_eq_wrap_rulesSum]
    exact wrap64_of_inRange hr.1 hr.2
  refine ⟨calculatePoints_eq_wrap_rulesSum pf receipt, hex receipt, ?_⟩
  intro other h1 h2
  rw [hex receipt h1, hex other h2]
  unfold rulesSum
  ring

theorem calculatePoints_sum_witness :
    (-(2 ^ 63) ≤ rulesSum samplePlatform exampleReceipt ∧
        rulesSum samplePlatform exampleReceipt < 2 ^ 63) ∧
      rulesSum samplePlatform exampleReceipt = 28 ∧
      calculatePoints samplePlatform exampleReceipt = rulesSum samplePlatform exampleReceipt :=
  ⟨by decide, by decide,
    (calculatePoints_sum samplePlatform exampleReceipt).2.1 (by decide)⟩

/-! ## Parse failures inside `calculatePoints` -/

theorem wrap64_range (x : Int) : -(2 ^ 63) ≤ wrap64 x ∧ wrap64 x < 2 ^ 63 := by
  unfold wrap64
  omega

theorem descriptionPoints_append (pf : Platform) (a b : List Item) :
    descriptionPoints pf (a ++ b) = descriptionPoints pf a + descriptionPoints pf b := by
  simp [descriptionPoints]

theorem descriptionPoints_cons (pf : Platform) (item : Item) (rest : List Item) :
    descriptionPoints pf (item :: rest) = itemPoints pf item + descriptionPoints pf rest := by
  simp [descriptionPoints]

/-- C11: `calculatePoints` is a total function into the `int` range (it returns
for every receipt, validated or not).  When the total does not parse as a number
the quarter-multiple rule contributes 0 and the result is made of the other six
contributions unchanged; an item whose price does not parse contributes 0 to the
description-length rule, and the rule then contributes what the items before it
and after it contribute, with every other rule unchanged. -/
theorem calculatePoints_parse_failure (pf : Platform) (receipt : Receipt) :
    (-(2 ^ 63) ≤ calculatePoints pf receipt ∧ calculatePoints pf receipt < 2 ^ 63) ∧
      (ParseFloat pf receipt.total = none →
        quarterPoints pf receipt.total = 0 ∧
          calculatePoints pf receipt =
            wrap64 (retailerPoints receipt.retailer + roundDollarPoints receipt.total +
              pairPoints receipt.items + descriptionPoints pf receipt.items +
              datePoints receipt.purchaseDate + timePoints receipt.purchaseTime)) ∧
      ∀ (pre : List Item) (item : Item) (post : List Item),
        receipt.items = pre ++ item :: post → ParseFloat pf item.price = none →
        itemPoints pf item = 0 ∧
          descriptionPoints pf receipt.items =
            descriptionPoints pf pre + descriptionPoints pf post ∧
          calculatePoints pf receipt =
            wrap64 (retailerPoints receipt.retailer + roundDollarPoints receipt.total +
              quarterPoints pf receipt.total + pairPoints receipt.items +
              (descriptionPoints pf pre + descriptionPoints pf post) +
              datePoints receipt.purchaseDate + timePoints receipt.purchaseTime) := by
  refine ⟨?_, ?_, ?_⟩
  · rw [calculatePoints_eq_wrap_rulesSum]
    exact wrap64_range _
  · intro hnone
    have hq : quarterPoints pf receipt.total = 0 := by
      unfold quarterPoints
      rw [hnone]
    refine ⟨hq, ?_⟩
    rw [calculatePoints_eq_wrap_rulesSum]
    unfold rulesSum
    rw [hq, add_zero]
  · intro pre item post hitems hnone
    have hi : itemPoints pf item = 0 := by
      unfold itemPoints
      rw [hnone]
      split <;> rfl
    have hd : descriptionPoints pf receipt.items =
        descriptionPoints pf pre + descriptionPoints pf post := by
      rw [hitems, descriptionPoints_append, descriptionPoints_cons, hi, zero_add]
    refine ⟨hi, hd, ?_⟩
    rw [calculatePoints_eq_wrap_rulesSum]
    unfold rulesSum
    rw [hd]

theorem calculatePoints_parse_failure_witness :
    ParseFloat samplePlatform unparsedReceipt.total = none ∧
      ParseFloat samplePlatform "x" = none ∧
      quarterPoints samplePlatform unparsedReceipt.total = 0 ∧
      descriptionPoints samplePlatform unparsedReceipt.items = 3 + 2 ∧
      itemPoints samplePlatform ⟨"abc", "x"⟩ = 0 :=
  ⟨by decide, by decide,
    ((calculatePoints_parse_failure samplePlatform unparsedReceipt).2.1 (by decide)).1,
    by decide,
    ((calculatePoints_parse_failure samplePlatform unparsedReceipt).2.2
      [⟨"abc", "10.00"⟩] ⟨"abc", "x"⟩ [⟨"abcdef", "5.00"⟩] (by decide) (by decide)).1⟩

/-! ## The handlers -/

/-- C12: read-your-write.  For every store and every receipt accepted by
`validateReceipt`, `processReceipt` answers 200 with the generated identifier,
and `getPoints` for that identifier on the resulting store answers 200 with the
points `calculatePoints` gives the receipt. -/
theorem getPoints_after_processReceipt (pf : Platform) (points : Store) (receipt : Receipt)
    (id : String) (hv : validateReceipt receipt = true) :
    (processReceipt pf points (some receipt) id).2 = ⟨200, Body.id id⟩ ∧
      getPoints (processReceipt pf points (some receipt) id).1 id =
        ((processReceipt pf points (some receipt) id).1,
          ⟨200, Body.points (calculatePoints pf receipt)⟩) := by
  simp [processReceipt, hv, getPoints, Store.set]

theorem getPoints_after_processReceipt_witness :
    validateReceipt exampleReceipt = true ∧
      (getPoints (processReceipt samplePlatform emptyStore (some exampleReceipt) "id-1").1
        "id-1").2 = ⟨200, Body.points 28⟩ := by
  refine ⟨by decide, ?_⟩
  rw [(getPoints_after_processReceipt samplePlatform emptyStore exampleReceipt "id-1"
    (by decide)).2]
  decide

/-- C13: when the body fails to parse or `validateReceipt` rejects the receipt,
`processReceipt` answers 400 with the error `The receipt is invalid.` and
returns the store it was given; when `validateReceipt` accepts the receipt it
answers 200. -/
theorem processReceipt_invalid (pf : Platform) (points : Store) (id : String) :
    processReceipt pf points none id = (points, ⟨400, Body.error "The receipt is invalid."⟩) ∧
      (∀ receipt : Receipt, validateReceipt receipt = false →
        processReceipt pf points (some receipt) id =
          (points, ⟨400, Body.error "The receipt is invalid."⟩)) ∧
      ∀ receipt : Receipt, validateReceipt receipt = true →
        (processReceipt pf points (some receipt) id).2.status = 200 ∧
          (processReceipt pf points (some receipt) id).2.status ≠ 400 := by
  refine ⟨rfl, ?_, ?_⟩
  · intro receipt h
    simp [processReceipt, h]
  · intro receipt h
    simp [processReceipt, h]

theorem processReceipt_invalid_witness :
    validateReceipt unparsedReceipt = false ∧ validateReceipt exampleReceipt = true ∧
      (processReceipt samplePlatform emptyStore (some unparsedReceipt) "id-1").2 =
        ⟨400, Body.error "The receipt is invalid."⟩ ∧
      (processReceipt samplePlatform emptyStore (some exampleReceipt) "id-1").2.status = 200 :=
  ⟨by decide, by decide,
    congrArg Prod.snd
      ((processReceipt_invalid samplePlatform emptyStore "id-1").2.1 unparsedReceipt (by decide)),
    ((processReceipt_invalid samplePlatform emptyStore "id-1").2.2 exampleReceipt
      (by decide)).1⟩

theorem getPoints_store (points : Store) (id : String) : (getPoints points id).1 = points := by
  unfold getPoints
  split <;> rfl

theorem run_lookup (pf : Platform) (points : Store) (k : String) (rest : List Request) :
    run pf points (Request.lookup k :: rest) = run pf points rest := by
  simp [run, handle, getPoints_store]

theorem run_of_not_logged (pf : Platform) (reqs : List Request) (points : Store) (id : String)
    (h : id ∉ (acceptedLog reqs).map Prod.fst) : run pf points reqs id = points id := by
  induction reqs generalizing points with
  | nil => rfl
  | cons req rest ih =>
    cases req with
    | lookup k =>
      rw [run_lookup]
      exact ih points h
    | process bound k =>
      cases bound with
      | none => exact ih points h
      | some receipt =>
        by_cases hv : validateReceipt receipt = true
        · simp only [acceptedLog, hv, if_true, List.map_cons, List.mem_cons, not_or] at h
          have := ih (points.set k (calculatePoints pf receipt)) h.2
          simp only [run, handle, processReceipt, hv, Bool.not_true, Bool.false_eq_true,
            if_false]
          rw [this]
          simp [Store.set, h.1]
        · have hv' : validateReceipt receipt = false := by simpa using hv
          simp only [acceptedLog, hv', Bool.false_eq_true, if_false] at h
          have := ih points h
          simpa [run, handle, processReceipt, hv'] using this

theorem run_value (pf : Platform) (reqs : List Request) (points : Store) (id : String) (v : Int)
    (h : run pf points reqs id = some v) :
    points id = some v ∨
      ∃ receipt, (id, receipt) ∈ acceptedLog reqs ∧ validateReceipt receipt = true ∧
        v = calculatePoints pf receipt := by
  induction reqs generalizing points with
  | nil => exact Or.inl h
  | cons req rest ih =>
    cases req with
    | lookup k =>
      rw [run_lookup] at h
      exact ih points h
    | process bound k =>
      cases bound with
      | none => exact ih points h
      | some receipt =>
        by_cases hv : validateReceipt receipt = true
        · simp only [run, handle, processReceipt, hv, Bool.not_true, Bool.false_eq_true,
            if_false] at h
          simp only [acceptedLog, hv, if_true, List.mem_cons]
          rcases ih _ h with h1 | ⟨r, hr, hrv, hre⟩
          · by_cases hk : id = k
            · subst hk
              simp only [Store.set, if_true, Option.some.injEq] at h1
              exact Or.inr ⟨receipt, Or.inl rfl, hv, h1.symm⟩
            · simp only [Store.set, hk, if_false] at h1
              exact Or.inl h1
          · exact Or.inr ⟨r, Or.inr hr, hrv, hre⟩
        · have hv' : validateReceipt receipt = false := by simpa using hv
          simp only [run, handle, processReceipt, hv', Bool.not_false, if_true] at h
          simp only [acceptedLog, hv', Bool.false_eq_true, if_false]
          exact ih points h

theorem run_fresh (pf : Platform) (reqs : List Request) (points : Store)
    (hf : freshIds pf points reqs = true) :
    (∀ k, points k ≠ none → k ∉ (acceptedLog reqs).map Prod.fst) ∧
      ((acceptedLog reqs).map Prod.fst).Nodup ∧
      ∀ id receipt, (id, receipt) ∈ acceptedLog reqs →
        run pf points reqs id = some (calculatePoints pf receipt) := by
  induction reqs generalizing points with
  | nil => simp [acceptedLog]
  | cons req rest ih =>
    cases req with
    | lookup k =>
      simp only [freshIds, handle, getPoints_store] at hf
      have := ih points hf
      rw [run_lookup]
      simpa [acceptedLog] using this
    | process bound k =>
      cases bound with
      | none =>
        simp only [freshIds, handle, processReceipt] at hf
        have := ih points hf
        simpa [acceptedLog, run, handle, processReceipt] using this
      | some receipt =>
        by_cases hv : validateReceipt receipt = true
        · simp only [freshIds, handle, processReceipt, hv, if_true, Bool.not_true,
            Bool.false_eq_true, if_false, Bool.and_eq_true, Option.isNone_iff_eq_none] at hf
          obtain ⟨hk, hrest⟩ := hf
          obtain ⟨i1, i2, i3⟩ := ih _ hrest
          have hknew : k ∉ (acceptedLog rest).map Prod.fst :=
            i1 k (by simp [Store.set])
          simp only [acceptedLog, hv, if_true, List.map_cons, List.mem_cons, not_or,
            List.nodup_cons, run, handle, processReceipt, Bool.not_true, Bool.false_eq_true,
            if_false]
          refine ⟨?_, ⟨hknew, i2⟩, ?_⟩
          · intro j hj
            have hjk : j ≠ k := by
              rintro rfl
              exact hj hk
            exact ⟨hjk, i1 j (by simpa [Store.set, hjk] using hj)⟩
          · intro id r hmem
            rcases hmem with heq | hmem
            · simp only [Prod.mk.injEq] at heq
              obtain ⟨rfl, rfl⟩ := heq
              rw [run_of_not_logged pf rest _ id hknew]
              simp [Store.set]
            · exact i3 id r hmem
        · have hv' : validateReceipt receipt = false := by simpa using hv
          simp only [freshIds, handle, processReceipt, hv', Bool.false_eq_true, if_false,
            Bool.not_false, if_true, Bool.true_and] at hf
          have := ih points hf
          simpa [acceptedLog, run, handle, processReceipt, hv'] using this

theorem log_unique (l : List (String × Receipt)) (h : (l.map Prod.fst).Nodup) (k : String)
    (r r' : Receipt) (h1 : (k, r) ∈ l) (h2 : (k, r') ∈ l) : r' = r := by
  induction l with
  | nil => cases h1
  | cons x xs ih =>
    simp only [List.map_cons, List.nodup_cons] at h
    have hmem : ∀ q, (k, q) ∈ xs → k ∈ xs.map Prod.fst := fun q hq =>
      List.mem_map.mpr ⟨(k, q), hq, rfl⟩
    rcases List.mem_cons.mp h1 with e1 | e1 <;> rcases List.mem_cons.mp h2 with e2 | e2
    · rw [← e1] at e2
      exact (Prod.mk.inj e2).2
    · rw [← e1] at h
      exact absurd (hmem r' e2) h.1
    · rw [← e2] at h
      exact absurd (hmem r e1) h.1
    · exact ih h.2 e1 e2

/-- C14: `getPoints` answers 200 with the stored points when the identifier is a
key of the store and 404 with `No receipt found for that ID.` when it is not; it
returns the store it was given, so a repeated lookup gives the same answer; and
after any sequence of requests from the empty store, an identifier that no
`processReceipt` returned yields 404. -/
theorem getPoints_spec (points : Store) (id : String) :
    (∀ pts, points id = some pts → getPoints points id = (points, ⟨200, Body.points pts⟩)) ∧
      (points id = none →
        getPoints points id = (points, ⟨404, Body.error "No receipt found for that ID."⟩)) ∧
      (getPoints points id).1 = points ∧
      getPoints (getPoints points id).1 id = getPoints points id ∧
      ∀ (pf : Platform) (reqs : List Request), id ∉ (acceptedLog reqs).map Prod.fst →
        getPoints (run pf emptyStore reqs) id =
          (run pf emptyStore reqs, ⟨404, Body.error "No receipt found for that ID."⟩) := by
  refine ⟨?_, ?_, getPoints_store points id, by rw [getPoints_store], ?_⟩
  · intro pts h
    simp [getPoints, h]
  · intro h
    simp [getPoints, h]
  · intro pf reqs h
    have hnone : run pf emptyStore reqs id = none := by
      rw [run_of_not_logged pf reqs emptyStore id h]
      rfl
    simp [getPoints, hnone]

theorem getPoints_spec_witness :
    (processReceipt samplePlatform emptyStore (some exampleReceipt) "id-1").1 "id-1" = some 28 ∧
      (getPoints (processReceipt samplePlatform emptyStore (some exampleReceipt) "id-1").1
        "id-1").2 = ⟨200, Body.points 28⟩ ∧
      emptyStore "id-1" = none ∧
      (getPoints emptyStore "id-1").2 = ⟨404, Body.error "No receipt found for that ID."⟩ ∧
      "id-2" ∉ (acceptedLog [Request.process (some exampleReceipt) "id-1"]).map Prod.fst ∧
      (getPoints (run samplePlatform emptyStore [Request.process (some exampleReceipt) "id-1"])
        "id-2").2 = ⟨404, Body.error "No receipt found for that ID."⟩ :=
  ⟨by decide,
    congrArg Prod.snd ((getPoints_spec
      (processReceipt samplePlatform emptyStore (some exampleReceipt) "id-1").1 "id-1").1 28
      (by decide)),
    by decide,
    congrArg Prod.snd ((getPoints_spec emptyStore "id-1").2.1 (by decide)),
    by decide,
    congrArg Prod.snd ((getPoints_spec emptyStore "id-2").2.2.2.2 samplePlatform
      [Request.process (some exampleReceipt) "id-1"] (by decide))⟩

/-- C15: when `processReceipt` accepts a receipt under an identifier that is not
yet a key, the new store is the old one plus that entry: the identifier holds the
receipt's `calculatePoints` value, every other key is as before, and every stored
value is kept.  Hence after any sequence of requests from the empty store in
which each generated identifier is new, the identifiers of the accepted receipts
are pairwise distinct and every key of the store belongs to exactly one accepted
receipt and holds that receipt's `calculatePoints` value. -/
theorem processReceipt_adds_entry (pf : Platform) (points : Store) (receipt : Receipt)
    (id : String) (hv : validateReceipt receipt = true) (hnew : points id = none) :
    (processReceipt pf points (some receipt) id).1 id = some (calculatePoints pf receipt) ∧
      (∀ k, k ≠ id → (processReceipt pf points (some receipt) id).1 k = points k) ∧
      (∀ k v, points k = some v → (processReceipt pf points (some receipt) id).1 k = some v) ∧
      ∀ reqs : List Request, freshIds pf emptyStore reqs = true →
        ((acceptedLog reqs).map Prod.fst).Nodup ∧
          ∀ k v, run pf emptyStore reqs k = some v →
            ∃ r, (k, r) ∈ acceptedLog reqs ∧ validateReceipt r = true ∧
              (∀ r', (k, r') ∈ acceptedLog reqs → r' = r) ∧ v = calculatePoints pf r := by
  have hstore : (processReceipt pf points (some receipt) id).1 =
      points.set id (calculatePoints pf receipt) := by
    simp [processReceipt, hv]
  rw [hstore]
  refine ⟨by simp [Store.set], ?_, ?_, ?_⟩
  · intro k hk
    simp [Store.set, hk]
  · intro k v hkv
    have hk : k ≠ id := by
      rintro rfl
      rw [hnew] at hkv
      cases hkv
    simp [Store.set, hk, hkv]
  · intro reqs hf
    obtain ⟨_, hnd, _⟩ := run_fresh pf reqs emptyStore hf
    refine ⟨hnd, ?_⟩
    intro k v hkv
    rcases run_value pf reqs emptyStore k v hkv with h0 | ⟨r, hr, hrv, hre⟩
    · cases h0
    · exact ⟨r, hr, hrv, fun r' hr' => log_unique _ hnd k r r' hr hr', hre⟩

theorem processReceipt_adds_entry_witness :
    validateReceipt exampleReceipt = true ∧ emptyStore "id-1" = none ∧
      (processReceipt samplePlatform emptyStore (some exampleReceipt) "id-1").1 "id-1" =
        some (calculatePoints samplePlatform exampleReceipt) ∧
      freshIds samplePlatform emptyStore
        [Request.process (some exampleReceipt) "id-1", Request.lookup "id-1",
          Request.process (some unparsedReceipt) "id-1",
          Request.process (some exampleReceipt) "id-2"] = true ∧
      ((acceptedLog
        [Request.process (some exampleReceipt) "id-1", Request.lookup "id-1",
          Request.process (some unparsedReceipt) "id-1",
          Request.process (some exampleReceipt) "id-2"]).map Prod.fst).Nodup :=
  ⟨by decide, by decide,
    (processReceipt_adds_entry samplePlatform emptyStore exampleReceipt "id-1" (by decide)
      (by decide)).1,
    by decide,
    ((processReceipt_adds_entry samplePlatform emptyStore exampleReceipt "id-1" (by decide)
      (by decide)).2.2.2 _ (by decide)).1⟩

/-! ## Rule isolation and the retailer example -/

/-- C16 (counterexample): with the total `100.00` the example receipt scores
103 and with `100.50` it scores 53: the difference is 50, not 75, because
`100.50` is a multiple of 0.25 and keeps the 25 points of the quarter rule. -/
theorem calculatePoints_total_toggle :
    calculatePoints samplePlatform { exampleReceipt with total := "100.00" } = 103 ∧
      calculatePoints samplePlatform { exampleReceipt with total := "100.50" } = 53 ∧
      quarterPoints samplePlatform "100.50" = 25 ∧
      calculatePoints samplePlatform { exampleReceipt with total := "100.00" } -
        calculatePoints samplePlatform { exampleReceipt with total := "100.50" } = 50 :=
  ⟨by decide, by decide, by decide, by decide⟩

/-- C16 (amended): for every two receipts equal in all fields except that one has
total `100.00` and the other `100.50`, the score of the `100.50` receipt is
exactly 50 less than that of the `100.00` receipt (provided the latter is at
least `-2^63 + 50`, as every non-negative score is); the whole difference comes
from the round-dollar rule, and the quarter-multiple rule adds 25 to both. -/
theorem calculatePoints_round_vs_half (pf : Platform) (a b : Receipt)
    (hr : a.retailer = b.retailer) (hd : a.purchaseDate = b.purchaseDate)
    (ht : a.purchaseTime = b.purchaseTime) (hi : a.items = b.items)
    (ha : a.total = "100.00") (hb : b.total = "100.50")
    (hrange : -(2 ^ 63) + 50 ≤ calculatePoints pf a) :
    calculatePoints pf b = calculatePoints pf a - 50 ∧
      roundDollarPoints a.total = 50 ∧ roundDollarPoints b.total = 0 ∧
      quarterPoints pf a.total = 25 ∧ quarterPoints pf b.total = 25 := by
  have h1 : roundDollarPoints a.total = 50 := by rw [ha]; decide
  have h2 : roundDollarPoints b.total = 0 := by rw [hb]; decide
  have h3 : quarterPoints pf a.total = 25 := by rw [ha]; rfl
  have h4 : quarterPoints pf b.total = 25 := by rw [hb]; rfl
  refine ⟨?_, h1, h2, h3, h4⟩
  rw [calculatePoints_eq_wrap_rulesSum] at hrange ⊢
  rw [calculatePoints_eq_wrap_rulesSum]
  unfold rulesSum at hrange ⊢
  rw [h1, h3] at hrange
  rw [h1, h2, h3, h4, hr, hd, ht, hi]
  rw [hr, hd, ht, hi] at hrange
  generalize retailerPoints b.retailer = x1 at hrange ⊢
  generalize pairPoints b.items = x2 at hrange ⊢
  generalize descriptionPoints pf b.items = x3 at hrange ⊢
  generalize datePoints b.purchaseDate = x4 at hrange ⊢
  generalize timePoints b.purchaseTime = x5 at hrange ⊢
  unfold wrap64 at hrange ⊢
  omega

theorem calculatePoints_round_vs_half_witness :
    -(2 ^ 63) + 50 ≤ calculatePoints samplePlatform { exampleReceipt with total := "100.00" } ∧
      calculatePoints samplePlatform { exampleReceipt with total := "100.50" } =
        calculatePoints samplePlatform { exampleReceipt with total := "100.00" } - 50 :=
  ⟨by decide,
    (calculatePoints_round_vs_half samplePlatform { exampleReceipt with total := "100.00" }
      { exampleReceipt with total := "100.50" } rfl rfl rfl rfl rfl rfl (by decide)).1⟩

/-- C17 (counterexample): the retailer rule gives `M&M Corner Market` 14 points,
not 18. -/
theorem retailerPoints_MM_not_18 :
    retailerPoints "M&M Corner Market" = 14 ∧ retailerPoints "M&M Corner Market" < 18 :=
  ⟨by decide, by decide⟩

/-- C17 (amended): for the retailer `M&M Corner Market` the retailer rule
contributes exactly 14, the number of its alphanumeric characters (2 + 6 + 6);
the two spaces and the ampersand contribute nothing. -/
theorem retailerPoints_MM :
    retailerPoints "M&M Corner Market" = 14 ∧
      "M&M Corner Market".data.countP
        (fun c => decide (IsAsciiLetter c ∨ IsDecimalDigit c)) = 14 ∧
      retailerPoints "MMCornerMarket" = 14 ∧ retailerPoints " & " = 0 :=
  ⟨by decide, by decide, by decide, by decide⟩

/-! ## Trimming a validated description -/

theorem all_of_dropWhile_all (p : Char → Bool) (s : List Char)
    (h : ∀ c ∈ s.dropWhile p, p c = true) : ∀ c ∈ s, p c = true := by
  induction s with
  | nil => intro c hc; cases hc
  | cons x xs ih =>
    by_cases hx : p x = true
    · simp only [List.dropWhile_cons, hx, if_true] at h
      intro c hc
      rcases List.mem_cons.mp hc with rfl | hc
      · exact hx
      · exact ih h c hc
    · have hx' : p x = false := by simpa using hx
      simp only [List.dropWhile_cons, hx', Bool.false_eq_true, if_false] at h
      exact h

theorem TrimSpace_eq_nil_iff (s : List Char) :
    TrimSpace s = [] ↔ ∀ c ∈ s, isUnicodeSpace c = true := by
  unfold TrimSpace
  rw [List.reverse_eq_nil_iff, List.dropWhile_eq_nil_iff]
  constructor
  · intro h
    exact all_of_dropWhile_all _ s (fun c hc => h c (List.mem_reverse.mpr hc))
  · intro h c hc
    exact h c ((List.dropWhile_sublist isUnicodeSpace).subset (List.mem_reverse.mp hc))

theorem isUnicodeSpace_of_descClass (c : Char) (h : descClass c = true) :
    isUnicodeSpace c = isReSpace c := by
  simp only [descClass, isWord, isAlnum, Bool.or_eq_true, Bool.and_eq_true,
    decide_eq_true_eq, beq_iff_eq] at h
  have hz : ∀ d : Char, c ≤ d → c.toNat ≤ d.toNat := fun d hd => hd
  have hz' : ∀ d : Char, d ≤ c → d.toNat ≤ c.toNat := fun d hd => hd
  have hne : ∀ d : Char, c.toNat ≠ d.toNat → (c == d) = false := by
    intro d hd
    simp only [beq_eq_false_iff_ne, ne_eq]
    rintro rfl
    exact hd rfl
  have key : ∀ lo hi : Nat, 33 ≤ lo → hi ≤ 127 → lo ≤ c.toNat → c.toNat ≤ hi →
      isUnicodeSpace c = isReSpace c := by
    intro lo hi h1 h2 h3 h4
    have e1 : isUnicodeSpace c = false := by
      simp only [isUnicodeSpace, Bool.or_eq_false_iff, Bool.and_eq_false_iff,
        decide_eq_false_iff_not, beq_eq_false_iff_ne, ne_eq]
      omega
    have t1 : ('\t' : Char).toNat = 9 := by decide
    have t2 : ('\n' : Char).toNat = 10 := by decide
    have t3 : (Char.ofNat 12).toNat = 12 := by decide
    have t4 : ('\r' : Char).toNat = 13 := by decide
    have t5 : (' ' : Char).toNat = 32 := by decide
    have e2 : isReSpace c = false := by
      simp only [isReSpace, hne '\t' (by omega), hne '\n' (by omega),
        hne (Char.ofNat 12) (by omega), hne '\r' (by omega), hne ' ' (by omega), Bool.or_self]
    rw [e1, e2]
  rcases h with ((((⟨h1, h2⟩ | ⟨h1, h2⟩) | ⟨h1, h2⟩) | h) | h) | h
  · exact key 97 122 (by omega) (by omega) (hz' _ h1) (hz _ h2)
  · exact key 65 90 (by omega) (by omega) (hz' _ h1) (hz _ h2)
  · exact key 48 57 (by omega) (by omega) (hz' _ h1) (hz _ h2)
  · subst h; decide
  · simp only [isReSpace, Bool.or_eq_true, beq_iff_eq] at h
    rcases h with (((h | h) | h) | h) | h <;> subst h <;> decide
  · subst h; decide

/-- C18 (counterexample): `blankDescriptionReceipt` is accepted by
`validateReceipt`, yet its description, a single space, is empty after
trimming, and the description-length rule applies its length-0 case to it
(`int(5.00 * 0.2) + 1 = 2` points). -/
theorem validated_description_trims_to_empty :
    validateReceipt blankDescriptionReceipt = true ∧
      String.data " " ≠ [] ∧ TrimSpace (String.data " ") = [] ∧
      byteLen (TrimSpace (String.data " ")) % 3 = 0 ∧
      descriptionPoints samplePlatform blankDescriptionReceipt.items = 2 :=
  ⟨by decide, by decide, by decide, by decide, by decide⟩

/-- C18 (amended): for every receipt accepted by `validateReceipt`, every item's
short description is non-empty, and it is empty after trimming exactly when it
consists of whitespace only (tab, line feed, form feed, carriage return, space);
so the length-0 case of the description-length rule applies to the whitespace-only
descriptions and to no other. -/
theorem validated_description_trim (receipt : Receipt) (hv : validateReceipt receipt = true) :
    ∀ item ∈ receipt.items,
      item.shortDescription.data ≠ [] ∧
        (TrimSpace item.shortDescription.data = [] ↔
          ∀ c ∈ item.shortDescription.data, IsPatternSpace c) := by
  intro item hi
  obtain ⟨⟨hne, hall⟩, _⟩ := validateReceipt_items receipt hv item hi
  refine ⟨hne, ?_⟩
  rw [TrimSpace_eq_nil_iff]
  constructor
  · intro h c hc
    rw [← isReSpace_iff, ← isUnicodeSpace_of_descClass c (hall c hc)]
    exact h c hc
  · intro h c hc
    rw [isUnicodeSpace_of_descClass c (hall c hc), isReSpace_iff]
    exact h c hc

theorem validated_description_trim_witness :
    validateReceipt exampleReceipt = true ∧
      String.data "Mountain Dew 12PK" ≠ [] ∧
      ¬ TrimSpace (String.data "Mountain Dew 12PK") = [] := by
  have h := validated_description_trim exampleReceipt (by decide)
    ⟨"Mountain Dew 12PK", "6.49"⟩ (by decide)
  exact ⟨by decide, h.1, by decide⟩

/-! ## Totals in whole dollars -/

theorem roundNearestEven_exact (num den : Nat) (hd : 0 < den) (j : Nat) (hj : j < 2 ^ 53)
    (h : (num : ℚ) / den = (j : ℚ)) :
    ∃ m E, roundNearestEven false num den = F64.fin false m E ∧
      (m : ℚ) * (2 : ℚ) ^ E = (j : ℚ) := by
  have hb : (j : ℚ) * (2 : ℚ) ^ (0 : Int) < (2 : ℚ) ^ (1023 : Int) := by
    have h1 : (j : ℚ) < (2 : ℚ) ^ (53 : Int) := by
      have : ((2 : ℚ) ^ (53 : Int)) = ((2 ^ 53 : Nat) : ℚ) := by norm_num
      rw [this]
      exact_mod_cast hj
    have h2 : (2 : ℚ) ^ (53 : Int) ≤ (2 : ℚ) ^ (1023 : Int) :=
      zpow_le_zpow_right₀ (by norm_num) (by norm_num)
    simp only [zpow_zero, mul_one]
    linarith
  obtain ⟨m, E, hr, hle⟩ := roundNearestEven_le false num den hd j 0 hj (by norm_num)
    (by simp only [zpow_zero, mul_one]; exact h.le) hb
  have hge := roundNearestEven_ge false num den hd j 0 hj (by norm_num)
    (by simp only [zpow_zero, mul_one]; exact h.ge) m E hr
  simp only [zpow_zero, mul_one] at hle hge
  exact ⟨m, E, hr, le_antisymm hle hge⟩

theorem decimalValue_append_zeros (ip : List Char) :
    decimalValue (ip ++ ['0', '0']) = 100 * decimalValue ip := by
  have h0 : digitVal '0' = 0 := by decide
  simp only [decimalValue, List.foldl_append, List.foldl_cons, List.foldl_nil, h0]
  omega

theorem quarterPoints_whole (pf : Platform) (total : String)
    (hm : Regex.matchString decimalPattern total.data = true)
    (hs : HasSuffix total.data ".00".data = true) (hb : cents total < 10 ^ 14) :
    quarterPoints pf total = 25 := by
  have hform := (matches_decimalPattern_iff _).mp hm
  obtain ⟨ip, d1, d2, hne, hall, h1, h2, hdata⟩ := hform
  obtain ⟨p, hp⟩ := (HasSuffix_iff _ _).mp hs
  have htail : ['.', d1, d2] = ['.', '0', '0'] := by
    have hp' : total.data = p ++ ['.', '0', '0'] := hp
    rw [hdata] at hp'
    exact List.append_inj_right' hp' rfl
  simp only [List.cons.injEq, true_and, and_true] at htail
  obtain ⟨rfl, rfl⟩ := htail
  have hc : cents total = 100 * decimalValue ip := by
    unfold cents
    rw [hdata, filter_decimal ip '0' '0' hall h1 h2, decimalValue_append_zeros]
  have hN : decimalValue ip < 10 ^ 12 := by omega
  generalize decimalValue ip = N at hc hN
  obtain ⟨m, E, hr, hval⟩ := roundNearestEven_exact (cents total) 100 (by norm_num) N
    (by omega) (by
      rw [hc]
      push_cast
      field_simp)
  obtain ⟨num, den, hden, hmul, hprod⟩ := mul_exact m E 100 0
  obtain ⟨m', E', hr', hval'⟩ := roundNearestEven_exact num den hden (100 * N) (by omega) (by
    rw [hprod, hval]
    push_cast
    simp only [zpow_zero, mul_one]
    ring)
  have hint : F64.toInt pf (F64.fin false m' E') = ((100 * N : Nat) : Int) :=
    toInt_of_bounds pf m' E' (100 * N) hval'.ge (by rw [hval']; linarith) (by omega)
  unfold quarterPoints
  rw [ParseFloat_decimal pf total ⟨ip, '0', '0', hne, hall, h1, h2, hdata⟩, hr]
  simp only
  have h100 : float100 = F64.fin false 100 0 := rfl
  rw [h100, hmul, hr', hint]
  rw [if_pos]
  apply Int.tmod_eq_zero_of_dvd
  exact ⟨4 * N, by push_cast; ring⟩

/-- C19 (counterexample): the total `12345678901234567.00` matches the pattern
and ends in `.00`, but a `float64` does not hold its 19 significant digits:
`int(total*100)` is `1234567890123456768`, not a multiple of 25, so the
quarter-multiple rule adds 0 and the total earns 50, not 75. -/
theorem totalPoints_large_whole :
    Regex.matchString decimalPattern (String.data "12345678901234567.00") = true ∧
      HasSuffix (String.data "12345678901234567.00") (String.data ".00") = true ∧
      quarterPoints samplePlatform "12345678901234567.00" = 0 ∧
      totalPoints samplePlatform "12345678901234567.00" = 50 ∧
      ∀ pf : Platform, totalPoints pf "12345678901234567.00" = 50 :=
  ⟨by decide, by decide, by decide, by decide, fun _ => rfl⟩

/-- C19 (amended): for every total string that matches `^\d+\.\d{2}$`, ends in
`.00` and is below `10^12` (fewer than `10^14` cents), whatever its number of
digits, the round-dollar and quarter-multiple rules both fire, so the total
earns exactly 75. -/
theorem totalPoints_whole (pf : Platform) (total : String)
    (hm : Regex.matchString decimalPattern total.data = true)
    (hs : HasSuffix total.data ".00".data = true) (hb : cents total < 10 ^ 14) :
    roundDollarPoints total = 50 ∧ quarterPoints pf total = 25 ∧ totalPoints pf total = 75 := by
  have h1 : roundDollarPoints total = 50 := by
    unfold roundDollarPoints
    rw [if_pos hs]
  have h2 := quarterPoints_whole pf total hm hs hb
  refine ⟨h1, h2, ?_⟩
  unfold totalPoints
  rw [h1, h2]
  rfl

theorem totalPoints_whole_witness :
    Regex.matchString decimalPattern (String.data "000123456789.00") = true ∧
      HasSuffix (String.data "000123456789.00") (String.data ".00") = true ∧
      cents "000123456789.00" < 10 ^ 14 ∧
      totalPoints samplePlatform "000123456789.00" = 75 :=
  ⟨by decide, by decide, by decide,
    (totalPoints_whole samplePlatform "000123456789.00" (by decide) (by decide)
      (by decide)).2.2⟩

/-! ## Date and time do not take part in validation -/

theorem not_clockTime_14xx : ¬ IsClockTime (String.data "14:xx") := by
  rintro ⟨h, m, _, _, hs⟩
  have hd : String.data "14:xx" = ['1', '4', ':', 'x', 'x'] := rfl
  rw [hd] at hs
  simp only [pad2, List.cons_append, List.nil_append, List.cons.injEq, and_true] at hs
  have hx := isDigit_digitChar m
  rw [← hs.2.2.2.2] at hx
  revert hx
  decide

/-- C20 (counterexample): `malformedTimeReceipt`, whose date is empty and whose
time `14:xx` is not a clock time, is accepted by `validateReceipt`, and the
afternoon rule gives it 10 points, not 0. -/
theorem malformed_time_earns_points :
    validateReceipt malformedTimeReceipt = true ∧
      ¬ IsClockTime malformedTimeReceipt.purchaseTime.data ∧
      timePoints malformedTimeReceipt.purchaseTime = 10 ∧
      datePoints malformedTimeReceipt.purchaseDate = 0 :=
  ⟨by decide, not_clockTime_14xx, by decide, by decide⟩

/-- C20 (amended): `validateReceipt` does not depend on `purchaseDate` or
`purchaseTime`: two receipts that differ only in those fields are both accepted
or both rejected, so any date and time, empty or malformed, are accepted with a
well-formed retailer, total and items.  `calculatePoints` then gives 0 for the
odd-day rule whenever the date is empty or not a valid `YYYY-MM-DD` date, and 0
for the afternoon rule whenever the time is empty or does not consist of exactly
two `:`-separated fields of which the first is an integer in `[14, 16)`. -/
theorem validateReceipt_ignores_date_time (receipt : Receipt) (date time : String) :
    validateReceipt { receipt with purchaseDate := date, purchaseTime := time } =
        validateReceipt receipt ∧
      datePoints "" = 0 ∧ timePoints "" = 0 ∧
      ((¬ ∃ year month day, year ≤ 9999 ∧ 1 ≤ month ∧ month ≤ 12 ∧ 1 ≤ day ∧
          day ≤ monthLength year month ∧ date.data = isoDate year month day) →
        datePoints date = 0) ∧
      ((¬ ∃ hour minute v, time.data = hour ++ ':' :: minute ∧ ':' ∉ hour ∧ ':' ∉ minute ∧
          IsIntegerLiteral hour v ∧ 14 ≤ v ∧ v < 16) →
        timePoints time = 0) := by
  refine ⟨rfl, by decide, by decide, ?_, ?_⟩
  · intro hno
    unfold datePoints
    split
    · next d heq =>
      rw [parseDate_iff] at heq
      obtain ⟨h1, h2, h3, h4, h5, h6⟩ := heq
      exact absurd ⟨d.year, d.month, d.day, h1, h2, h3, h4, h5, h6⟩ hno
    · rfl
  · intro hno
    unfold timePoints
    split
    · next h m heq =>
      rw [Split_eq_pair_iff] at heq
      obtain ⟨hd, hh, hm⟩ := heq
      rw [if_neg]
      intro hc
      obtain ⟨v, hv, h1, h2⟩ := (Atoi_afternoon_iff h).mp hc
      exact hno ⟨h, m, v, hd, hh, hm, hv, h1, h2⟩
    · rfl

theorem validateReceipt_ignores_date_time_witness :
    validateReceipt undatedReceipt = true ∧
      validateReceipt { undatedReceipt with purchaseDate := "2022-02-30", purchaseTime := "14" } =
        true ∧
      datePoints "2022-02-30" = 0 ∧ timePoints "14" = 0 := by
  have h := validateReceipt_ignores_date_time undatedReceipt "2022-02-30" "14"
  refine ⟨by decide, h.1.trans (by decide), h.2.2.2.1 ?_, h.2.2.2.2 ?_⟩
  · rintro ⟨year, month, day, h1, h2, h3, h4, h5, h6⟩
    have hd : parseDate (String.data "2022-02-30") = some ⟨year, month, day⟩ :=
      (parseDate_iff _ _).mpr ⟨h1, h2, h3, h4, h5, h6⟩
    have hn : parseDate (String.data "2022-02-30") = none := by decide
    rw [hn] at hd
    cases hd
  · rintro ⟨hour, minute, v, h1, h2, h3, _⟩
    have hs : Split ':' (String.data "14") = [hour, minute] :=
      (Split_eq_pair_iff _ _ _ _).mpr ⟨h1, h2, h3⟩
    have hs' : Split ':' (String.data "14") = [['1', '4']] := by decide
    rw [hs'] at hs
    simp at hs

end ReceiptProcessor
